import Mathlib

/-!
# Verification of the RAG retrieval pipeline

A shallow embedding, in Lean 4, of the retrieval subsystem of the
MechanicTroubleShooter repository:

* `reciprocal_rank_fusion` and the fallback branching of `hybrid_search`
  (`FastApi/services/retrieval/hybrid_search.py`),
* `_deduplicate_aggressively` / `_is_too_similar` and
  `_build_context_with_parents` (`FastApi/services/retrieval/rag.py`),
* `rerank_results` (`FastApi/services/retrieval/reranker.py`),
* `create_parent_chunks` / `_split_by_headers`
  (`FastApi/services/ingestion/chunking.py`),
* `ParentDocumentStore._save` / `_load` (`App/Services/docstore.py`).

Texts are modelled as lists of characters (`Str`), documents as a record of
page content plus a string-valued metadata association list (the metadata keys
the pipeline reads — `chunk_id`, `parent_id`, `section_title`, … — all hold
strings in the source).  Python floats are modelled as exact rationals;
Python's stable `sorted` is modelled by Mathlib's stable `List.insertionSort`.
-/

/-- Python strings, modelled as lists of characters. -/
abbrev Str := List Char

/-- A LangChain `Document`: page content plus metadata.  Metadata is modelled
as an association list from string keys to string values (every metadata key
the embedded code reads holds a string in the source). -/
structure Document where
  page_content : Str
  metadata : List (Str × Str)
deriving DecidableEq, Repr

/-- `d.metadata.get(key)` — first binding of `key` in the association list,
`none` when absent (Python dicts have unique keys, so first-match agrees). -/
def metaGet (md : List (Str × Str)) (key : Str) : Option Str :=
  match md with
  | [] => none
  | (k, v) :: rest => if k = key then some v else metaGet rest key

/-- `d.metadata.get(key, dflt)`. -/
def metaGetD (md : List (Str × Str)) (key : Str) (dflt : Str) : Str :=
  (metaGet md key).getD dflt

/-! ## Python string primitives -/

/-- The characters Python `str.strip` / `str.split` treat as whitespace
(ASCII portion, which is all the embedded code encounters): space, tab,
newline, carriage return, vertical tab, form feed. -/
def isPySpace (c : Char) : Bool :=
  c.toNat = 32 || c.toNat = 9 || c.toNat = 10 || c.toNat = 13 ||
    c.toNat = 11 || c.toNat = 12

/-- Python `str.strip()`: drop leading and trailing whitespace. -/
def pyStrip (s : Str) : Str :=
  ((s.dropWhile isPySpace).reverse.dropWhile isPySpace).reverse

/-- ASCII case folding of one character (Python `str.lower()`; the manual
text the pipeline handles is ASCII). -/
def pyCharLower (c : Char) : Char :=
  if 65 ≤ c.toNat ∧ c.toNat ≤ 90 then Char.ofNat (c.toNat + 32) else c

/-- Python `str.lower()`. -/
def pyLower (s : Str) : Str := s.map pyCharLower

/-- Python `sep.join(parts)`. -/
def pyJoin (sep : Str) : List Str → Str
  | [] => []
  | [t] => t
  | t :: u :: ts => t ++ sep ++ pyJoin sep (u :: ts)

/-- Worker for `pySplit`: `acc` holds the current word, reversed. -/
def pySplitAux : Str → Str → List Str
  | [], acc => if acc = [] then [] else [acc.reverse]
  | c :: rest, acc =>
    if isPySpace c then
      if acc = [] then pySplitAux rest []
      else acc.reverse :: pySplitAux rest []
    else pySplitAux rest (c :: acc)

/-- Python `str.split()` with no argument: split on runs of whitespace,
discarding empty fields. -/
def pySplit (s : Str) : List Str := pySplitAux s []

/-- Python substring test `needle in haystack`. -/
def strContains (haystack needle : Str) : Bool :=
  haystack.tails.any (fun t => needle.isPrefixOf t)

/-- Decimal rendering of a natural number (Python `str(n)` / f-string
interpolation of an `int`).  The extra argument is structural fuel. -/
def natToStrAux : Nat → Nat → Str
  | 0, _ => []
  | fuel + 1, n =>
    if n < 10 then [Char.ofNat (48 + n)]
    else natToStrAux fuel (n / 10) ++ [Char.ofNat (48 + n % 10)]

/-- Decimal rendering of a natural number. -/
def natToStr (n : Nat) : Str := natToStrAux (n + 1) n

/-! ## Reciprocal rank fusion (`hybrid_search.py`, `reciprocal_rank_fusion`)

The Python function accumulates a `doc_scores : Dict[str, (Document, float)]`
keyed by `doc.metadata.get('chunk_id', doc.page_content[:50])`, then sorts the
dict's values by score, descending.  Python dicts preserve insertion order and
an update keeps an existing key's position, so the dict is modelled as an
association list in which updates rewrite in place and new keys append. -/

/-- The metadata key `'chunk_id'`. -/
def chunkIdKey : Str := "chunk_id".toList

/-- `doc.metadata.get('chunk_id', doc.page_content[:50])` — the dict key used
by `reciprocal_rank_fusion` for a document. -/
def rrfId (d : Document) : Str :=
  (metaGet d.metadata chunkIdKey).getD (d.page_content.take 50)

/-- One `doc_scores` entry: key, stored document, accumulated score. -/
abbrev RrfEntry := Str × Document × ℚ

/-- `doc_scores[doc_id] = (doc, old + s)` when the key is present (in-place,
storing the newly seen document object), `doc_scores[doc_id] = (doc, s)`
(appended) when it is not. -/
def rrfInsert (acc : List RrfEntry) (key : Str) (doc : Document) (s : ℚ) :
    List RrfEntry :=
  if key ∈ acc.map Prod.fst then
    acc.map (fun e => if e.1 = key then (key, doc, e.2.2 + s) else e)
  else
    acc ++ [(key, doc, s)]

/-- The loop over `vector_results`: at zero-based `rank`, the document earns
`vector_weight * (1.0 / (k + rank + 1))`.  `r` is the rank of the head. -/
def rrfPassVector (w : ℚ) (k : Nat) : Nat → List Document → List RrfEntry →
    List RrfEntry
  | _, [], acc => acc
  | r, d :: ds, acc =>
      rrfPassVector w k (r + 1) ds
        (rrfInsert acc (rrfId d) d (w * (1 / ((k : ℚ) + (r : ℚ) + 1))))

/-- The loop over `bm25_results` (`(Document, score)` pairs; the BM25 score
itself is ignored, only the rank matters). -/
def rrfPassBm25 (w : ℚ) (k : Nat) : Nat → List (Document × ℚ) →
    List RrfEntry → List RrfEntry
  | _, [], acc => acc
  | r, p :: ps, acc =>
      rrfPassBm25 w k (r + 1) ps
        (rrfInsert acc (rrfId p.1) p.1 (w * (1 / ((k : ℚ) + (r : ℚ) + 1))))

/-- The fully accumulated `doc_scores` association list. -/
def rrfEntries (vector_results : List Document)
    (bm25_results : List (Document × ℚ)) (k : Nat) (vw bw : ℚ) :
    List RrfEntry :=
  rrfPassBm25 bw k 0 bm25_results (rrfPassVector vw k 0 vector_results [])

/-- The "score not smaller" relation that descending stable sorting uses. -/
def scoreGe (a b : Document × ℚ) : Prop := b.2 ≤ a.2

instance : DecidableRel scoreGe := fun a b => inferInstanceAs (Decidable (b.2 ≤ a.2))

instance : IsTotal (Document × ℚ) scoreGe := ⟨fun a b => le_total b.2 a.2⟩

instance : IsTrans (Document × ℚ) scoreGe := ⟨fun _ _ _ h1 h2 => le_trans h2 h1⟩

/-- `sorted(doc_scores.values(), key=lambda x: x[1], reverse=True)` —
Python's `sorted` is stable, so it is modelled by the stable
`List.insertionSort` with the reflexive "score not smaller" relation. -/
def rrfSorted (vector_results : List Document)
    (bm25_results : List (Document × ℚ)) (k : Nat) (vw bw : ℚ) :
    List (Document × ℚ) :=
  List.insertionSort scoreGe
    ((rrfEntries vector_results bm25_results k vw bw).map Prod.snd)

/-- `reciprocal_rank_fusion(vector_results, bm25_results, k, vector_weight,
bm25_weight)`: fuse the two ranked lists and return the documents in
descending RRF-score order. -/
def reciprocal_rank_fusion (vector_results : List Document)
    (bm25_results : List (Document × ℚ)) (k : Nat := 60)
    (vw : ℚ := 1/2) (bw : ℚ := 1/2) : List Document :=
  (rrfSorted vector_results bm25_results k vw bw).map Prod.fst

/-! ## The fallback branching of `hybrid_search` (`hybrid_search.py`)

After the two searches produce `vector_results` and `bm25_results` (a failed
or unavailable signal yields `[]`), `hybrid_search` combines them:
empty BM25 → first `k` vector results; empty vector → first `k` BM25
documents; otherwise RRF fusion truncated to `k`. -/

/-- The combination step of `hybrid_search` (lines 195–214 of the source,
`include_images=False` path). -/
def hybridCombine (vector_results : List Document)
    (bm25_results : List (Document × ℚ)) (k : Nat) : List Document :=
  if bm25_results = [] then vector_results.take k
  else if vector_results = [] then (bm25_results.map Prod.fst).take k
  else (reciprocal_rank_fusion vector_results bm25_results 60).take k

/-! ## Aggressive deduplication (`rag.py`, `_deduplicate_aggressively` /
`_is_too_similar`)

The loop keeps three pieces of state: the set of stripped contents already
accepted (`seen_content`), the set of their whitespace-normalized lowercase
forms (`seen_normalized`), and the accepted documents themselves
(`unique_docs`), against which the near-duplicate test runs. -/

/-- `' '.join(content.lower().split())`. -/
def pyNormalize (s : Str) : Str :=
  pyJoin [' '] (pySplit (pyLower s))

/-- `set(s.lower().split())` — the lowercased token set, as a first-occurrence
deduplicated list. -/
def tokenSet (s : Str) : List Str := (pySplit (pyLower s)).dedup

/-- `_is_too_similar(content1, content2, threshold)`: exact equality; else for
short texts (either side shorter than 50 characters) substring containment of
the shorter in the longer; else token-set overlap against the smaller set
compared with the threshold. -/
def is_too_similar (content1 content2 : Str) (threshold : ℚ := 85/100) : Bool :=
  if content1 = content2 then true
  else if content1.length < 50 || content2.length < 50 then
    let longer := if content1.length > content2.length then content1 else content2
    let shorter := if content1.length > content2.length then content2 else content1
    strContains longer shorter
  else
    let words1 := tokenSet content1
    let words2 := tokenSet content2
    if words1 = [] || words2 = [] then false
    else
      let intersection := (words1.filter (fun w => w ∈ words2)).length
      let smaller := min words1.length words2.length
      let similarity : ℚ := if smaller > 0 then (intersection : ℚ) / (smaller : ℚ) else 0
      decide (similarity ≥ threshold)

/-- The loop state of `_deduplicate_aggressively`: `seen_content`,
`seen_normalized` and the accepted documents so far. -/
structure DedupState where
  seenC : List Str
  seenN : List Str
  uniq : List Document
deriving DecidableEq, Repr

/-- The acceptance test of one loop iteration: the candidate's stripped
content is new, its normalized form is new, and it is not too similar to any
already-accepted document (whose content is compared raw, as in the source). -/
def dedupAccept (st : DedupState) (d : Document) : Bool :=
  let content := pyStrip d.page_content
  !(st.seenC.contains content) &&
  !(st.seenN.contains (pyNormalize content)) &&
  !(st.uniq.any (fun e => is_too_similar content e.page_content))

/-- Record an accepted candidate in the loop state. -/
def dedupPush (st : DedupState) (d : Document) : DedupState :=
  { seenC := pyStrip d.page_content :: st.seenC
    seenN := pyNormalize (pyStrip d.page_content) :: st.seenN
    uniq := st.uniq ++ [d] }

/-- The body of `_deduplicate_aggressively`, returning the documents accepted
from the remaining input (the source appends them to `unique_docs`, which the
`uniq` field threads along for the similarity checks). -/
def dedupGo (st : DedupState) : List Document → List Document
  | [] => []
  | d :: ds =>
    if dedupAccept st d then d :: dedupGo (dedupPush st d) ds
    else dedupGo st ds

/-- The loop state after consuming a list of candidates. -/
def dedupRun (st : DedupState) : List Document → DedupState
  | [] => st
  | d :: ds =>
    if dedupAccept st d then dedupRun (dedupPush st d) ds
    else dedupRun st ds

/-- `_deduplicate_aggressively(docs)`. -/
def deduplicate_aggressively (docs : List Document) : List Document :=
  dedupGo ⟨[], [], []⟩ docs

/-! A second deduplication definition, written from the specification's words
for the refinement claim about the long-text regime:
"`deduplicate(candidates) -> unique list`, order-preserving (first occurrence
wins)"; "similarity is the size of the token-set intersection divided by the
size of the smaller token set; a candidate is rejected if this ratio meets or
exceeds a similarity threshold (default 0.85)". -/

/-- Modelled from the spec: the asymmetric token-overlap ratio of two texts
meets or exceeds the 0.85 threshold. -/
def specOverlapTooHigh (text1 text2 : Str) : Bool :=
  let words1 := tokenSet text1
  let words2 := tokenSet text2
  let intersection := (words1.filter (fun w => w ∈ words2)).length
  let smaller := min words1.length words2.length
  decide (((intersection : ℚ) / (smaller : ℚ)) ≥ 85/100)

/-- Modelled from the spec: greedy first-occurrence-wins deduplication, a
candidate being rejected exactly when its overlap ratio against some
already-accepted candidate meets or exceeds the threshold. -/
def specDedupGo (kept : List Document) : List Document → List Document
  | [] => []
  | d :: ds =>
    if kept.any (fun e => specOverlapTooHigh d.page_content e.page_content) then
      specDedupGo kept ds
    else d :: specDedupGo (kept ++ [d]) ds

/-- Modelled from the spec: the deduplication contract. -/
def specDedup (docs : List Document) : List Document := specDedupGo [] docs

/-! ## Context assembly (`rag.py`, `_build_context_with_parents`)

The document store (`ParentDocumentStore.store`) is a dict from parent id to
document, modelled as an association list with the same first-match lookup. -/

/-- `store.get(doc_id)` — `ParentDocumentStore.get_document`. -/
def storeGet (store : List (Str × Document)) (key : Str) : Option Document :=
  match store with
  | [] => none
  | (k, v) :: rest => if k = key then some v else storeGet rest key

/-- The metadata key `'parent_id'`. -/
def parentIdKey : Str := "parent_id".toList

/-- The metadata key `'section_title'`. -/
def sectionTitleKey : Str := "section_title".toList

/-- `child.metadata.get("section_title", "Unknown")`. -/
def sectionTitleOf (d : Document) : Str :=
  metaGetD d.metadata sectionTitleKey ("Unknown".toList)

/-- `f"[Source {i+1}: {section_title} (Full Section)]\n{parent.page_content}"`. -/
def parentContextPart (n : Nat) (title : Str) (text : Str) : Str :=
  "[Source ".toList ++ natToStr n ++ ": ".toList ++ title ++
    " (Full Section)]".toList ++ ['\n'] ++ text

/-- `f"[Source {i+1}: {section_title}]\n{child.page_content}"`. -/
def childContextPart (n : Nat) (title : Str) (text : Str) : Str :=
  "[Source ".toList ++ natToStr n ++ ": ".toList ++ title ++ "]".toList ++
    ['\n'] ++ text

/-- The enumerated loop of `_build_context_with_parents`, returning
`context_parts`.  `i` is the zero-based index of the head child and `seen` is
`seen_parents`.  A falsy parent id (`None` or the empty string) falls through
to the plain child branch, exactly as the source's truthiness tests do. -/
def buildContextParts (store : List (Str × Document)) :
    Nat → List Str → List Document → List Str
  | _, _, [] => []
  | i, seen, child :: rest =>
    match metaGet child.metadata parentIdKey with
    | some pid =>
      if pid ≠ [] then
        if pid ∈ seen then buildContextParts store (i + 1) seen rest
        else
          match storeGet store pid with
          | some parent_doc =>
            parentContextPart (i + 1) (sectionTitleOf child) parent_doc.page_content ::
              buildContextParts store (i + 1) (pid :: seen) rest
          | none =>
            childContextPart (i + 1) (sectionTitleOf child) child.page_content ::
              buildContextParts store (i + 1) seen rest
      else
        childContextPart (i + 1) (sectionTitleOf child) child.page_content ::
          buildContextParts store (i + 1) seen rest
    | none =>
      childContextPart (i + 1) (sectionTitleOf child) child.page_content ::
        buildContextParts store (i + 1) seen rest

/-- `_build_context_with_parents(child_docs)`: the assembled context string,
`"\n\n".join(context_parts)`. -/
def build_context_with_parents (store : List (Str × Document))
    (child_docs : List Document) : Str :=
  pyJoin ['\n', '\n'] (buildContextParts store 0 [] child_docs)

/-! ## Cross-encoder reranking (`reranker.py`, `rerank_results`)

The external cross-encoder is not part of the repository; its three observable
behaviours at the call site are: the model failed to load (`get_reranker()`
returned `None`), `predict` raised (the `except` path), or `predict` returned
a score per `(query, page_content)` pair (modelled as a scoring function). -/

/-- The observable behaviour of the external cross-encoder scorer. -/
inductive Scorer where
  | unavailable : Scorer
  | failing : Scorer
  | working : (Str → Str → ℚ) → Scorer

/-- `rerank_results(query, documents, top_k)`: empty input returns `[]`; an
unavailable model returns `documents[:top_k]`; a raising `predict` returns
`documents[:min(top_k, len(documents))]`; otherwise the documents are scored,
stably sorted by score descending, and truncated to
`min(top_k, len(documents))`. -/
def rerank_results (scorer : Scorer) (query : Str) (documents : List Document)
    (top_k : Nat) : List Document :=
  if documents = [] then []
  else
    match scorer with
    | .unavailable => documents.take top_k
    | .failing => documents.take (min top_k documents.length)
    | .working f =>
      let scored := documents.map (fun d => (d, f query d.page_content))
      let sorted := List.insertionSort scoreGe scored
      let actual_k := min top_k scored.length
      (sorted.take actual_k).map Prod.fst

/-! ## Parent chunking (`chunking.py`, `create_parent_chunks` /
`_split_by_headers`)

A page is a `page_num` plus its text (the `{"page_num": ..., "text": ...}`
dicts produced by the PDF processor). -/

/-- One element of the `pages` list. -/
structure Page where
  page_num : Nat
  text : Str
deriving DecidableEq, Repr

/-- A section produced by `_split_by_headers`:
`(section_title, section_text, section_code, page_numbers)`. -/
structure Section where
  title : Str
  text : Str
  code : Str
  pages : Str
deriving DecidableEq, Repr

/-- A character of the regex class `[a-zA-Z\s\-\&]`. -/
def isTitleChar (c : Char) : Bool :=
  c.isAlpha || isPySpace c || c = '-' || c = '&'

/-- Group 2 of the header regex, `[A-Z][a-zA-Z\s\-\&]{3,}`, anchored to the
end of the line: an uppercase letter followed by at least three characters of
the class. -/
def titleMatch (l : Str) : Bool :=
  match l with
  | [] => false
  | c :: rest => c.isUpper && decide (3 ≤ rest.length) && rest.all isTitleChar

/-- After the leading digits of group 1: an optional `.`, then greedy
whitespace, then group 2.  Returns `(group1, group2)` on a match.  (Since
group 2 must begin with an uppercase letter, the greedy `\.?\s*` is
deterministic here.) -/
def headerAfterDigits (ds : Str) (l : Str) : Option (Str × Str) :=
  let dotted := match l with
    | '.' :: t => (ds ++ ['.'], t)
    | _ => (ds, l)
  let g1 := dotted.1 ++ dotted.2.takeWhile isPySpace
  let rest := dotted.2.dropWhile isPySpace
  if titleMatch rest then some (g1, rest) else none

/-- `re.match(r'^(\d{1,2}\.?\s*)?([A-Z][a-zA-Z\s\-\&]{3,})$', line)`: returns
`(group1?, group2)` on a match.  Group 1 (one or two digits, optional dot,
whitespace) and group 2 (starting with an uppercase letter) begin with
disjoint character classes, so the alternatives never overlap. -/
def headerMatch (l : Str) : Option (Option Str × Str) :=
  match l with
  | [] => none
  | c :: rest =>
    if c.isUpper then
      if titleMatch (c :: rest) then some (none, c :: rest) else none
    else if c.isDigit then
      match rest with
      | c2 :: rest2 =>
        if c2.isDigit then (headerAfterDigits [c, c2] rest2).map (fun p => (some p.1, p.2))
        else (headerAfterDigits [c] rest).map (fun p => (some p.1, p.2))
      | [] => none
    else none

/-- Python `str.isdigit()` on a stripped line: nonempty and all digits. -/
def pyIsDigit (s : Str) : Bool := !s.isEmpty && s.all Char.isDigit

/-- The `content_to_page` mapping: for each page, each nonempty stripped line
maps to that page's number; later pages overwrite earlier ones (dict
assignment), so lookup takes the last binding. -/
def contentToPage (pages : List Page) (line : Str) : Option Nat :=
  (pages.foldl
    (fun acc p =>
      ((p.text.splitOn '\n').foldl
        (fun acc2 ln =>
          let ls := pyStrip ln
          if ls ≠ [] then (ls, p.page_num) :: acc2 else acc2)
        acc))
    []).find? (fun e => e.1 = line) |>.map Prod.snd

/-- `",".join(map(str, sorted(current_pages)))` with the `"unknown"` fallback
for an empty set. -/
def pageStr (pgs : List Nat) : Str :=
  if pgs = [] then "unknown".toList
  else pyJoin [','] ((List.insertionSort (· ≤ ·) pgs).map natToStr)

/-- Insert into the `current_pages` set. -/
def pageInsert (pgs : List Nat) (n : Nat) : List Nat :=
  if n ∈ pgs then pgs else n :: pgs

/-- The running state of the `_split_by_headers` loop. -/
structure SplitState where
  title : Str
  section_lines : List Str
  code : Str
  pages : List Nat
  last_header : Str
  acc : List Section
deriving Repr

/-- Flush `current_section` into the section list (the
`if current_section: sections.append(...)` step). -/
def splitFlush (st : SplitState) : List Section :=
  if st.section_lines = [] then st.acc
  else st.acc ++ [⟨st.title, pyJoin ['\n'] st.section_lines, st.code, pageStr st.pages⟩]

/-- One iteration of the `_split_by_headers` loop over the lines of the text. -/
def splitStep (pages : List Page) (st : SplitState) (line : Str) : SplitState :=
  let ls := pyStrip line
  if pyIsDigit ls then st
  else
    let st1 := match contentToPage pages ls with
      | some pn => { st with pages := pageInsert st.pages pn }
      | none => st
    match headerMatch ls with
    | some (g1, g2) =>
      if decide (ls.length < 60) then
        let new_title := pyStrip g2
        if new_title = st1.last_header then st1
        else
          { title := new_title
            section_lines := []
            code := match g1 with
              | some c => pyStrip c
              | none => "unknown".toList
            pages := []
            last_header := new_title
            acc := splitFlush st1 }
      else if ls ≠ [] then { st1 with section_lines := st1.section_lines ++ [line] }
      else st1
    | none =>
      if ls ≠ [] then { st1 with section_lines := st1.section_lines ++ [line] }
      else st1

/-- `_split_by_headers(text, pages)`. -/
def split_by_headers (text : Str) (pages : List Page) : List Section :=
  splitFlush
    ((text.splitOn '\n').foldl (splitStep pages)
      ⟨"General".toList, [], "unknown".toList, [], [], []⟩)

/-- `detect_vehicle_model(filename)` (`pdf_processor.py`). -/
def detect_vehicle_model (filename : Str) : Str :=
  let fl := pyLower filename
  if strContains fl ("duster".toList) then "Dacia Duster".toList
  else if strContains fl ("logan".toList) then "Dacia Logan".toList
  else if strContains fl ("sandero".toList) then "Dacia Sandero".toList
  else "Dacia General".toList

/-- Build the parent `Document` for one section. -/
def mkParentDoc (filename file_hash vehicle_model : Str) (ctr : Nat)
    (s : Section) : Document :=
  { page_content := s.text
    metadata :=
      [ (parentIdKey, file_hash.take 8 ++ "_parent_".toList ++ natToStr ctr)
      , ("type".toList, "parent".toList)
      , ("source_file".toList, filename)
      , ("file_hash".toList, file_hash)
      , ("chapter".toList, s.title)
      , (sectionTitleKey, s.title)
      , ("section_code".toList, s.code)
      , ("page_numbers".toList, s.pages)
      , ("vehicle_model".toList, vehicle_model)
      , ("char_count".toList, natToStr s.text.length) ] }

/-- The filtering loop of `create_parent_chunks`: sections whose stripped
text is shorter than 100 characters are skipped; the others become parent
documents with consecutive ids. -/
def buildParents (filename file_hash vehicle_model : Str) :
    Nat → List Section → List Document
  | _, [] => []
  | ctr, s :: rest =>
    if (pyStrip s.text).length < 100 then
      buildParents filename file_hash vehicle_model ctr rest
    else
      mkParentDoc filename file_hash vehicle_model ctr s ::
        buildParents filename file_hash vehicle_model (ctr + 1) rest

/-- `create_parent_chunks(pages, filename, file_hash)`. -/
def create_parent_chunks (pages : List Page) (filename file_hash : Str) :
    List Document :=
  let full_text := pyJoin ['\n', '\n'] (pages.map Page.text)
  buildParents filename file_hash (detect_vehicle_model filename) 0
    (split_by_headers full_text pages)

/-! ## Document store persistence (`docstore.py`, `ParentDocumentStore`)

`_save` serializes `self.store` as a JSON object mapping each id to an object
with `page_content` and `metadata` fields; `_load` rebuilds the store from the
parsed JSON.  The JSON values the store writes are strings and string-keyed
objects, so that fragment of JSON suffices for the model. -/

/-- The JSON fragment the docstore reads and writes. -/
inductive Json where
  | jstr : Str → Json
  | jobj : List (Str × Json) → Json

/-- Field lookup in a parsed JSON object (Python `dict.get`). -/
def jsonFind (kvs : List (Str × Json)) (key : Str) : Option Json :=
  match kvs with
  | [] => none
  | (k, v) :: rest => if k = key then some v else jsonFind rest key

/-- Read a JSON value as a string (the shapes `_save` writes). -/
def jsonAsStr (j : Json) : Str :=
  match j with
  | .jstr s => s
  | .jobj _ => []

/-- Read a JSON value as a string-to-string object. -/
def jsonAsMeta (j : Json) : List (Str × Str) :=
  match j with
  | .jstr _ => []
  | .jobj kvs => kvs.map (fun kv => (kv.1, jsonAsStr kv.2))

/-- `ParentDocumentStore._save`: the JSON written for the in-memory store. -/
def docstoreSave (store : List (Str × Document)) : Json :=
  .jobj (store.map (fun e =>
    (e.1, .jobj
      [ ("page_content".toList, .jstr e.2.page_content)
      , ("metadata".toList, .jobj (e.2.metadata.map (fun kv => (kv.1, .jstr kv.2)))) ])))

/-- `ParentDocumentStore._load`: rebuild the store from parsed JSON, using
`doc_data.get('page_content', '')` and `doc_data.get('metadata', {})`. -/
def docstoreLoad (data : Json) : List (Str × Document) :=
  match data with
  | .jstr _ => []
  | .jobj entries =>
    entries.map (fun e =>
      match e.2 with
      | .jobj fields =>
        (e.1,
          { page_content := jsonAsStr ((jsonFind fields ("page_content".toList)).getD (.jstr []))
            metadata := jsonAsMeta ((jsonFind fields ("metadata".toList)).getD (.jobj [])) })
      | .jstr _ => (e.1, { page_content := [], metadata := [] }))

/-! ## Claim C8: document store round trip -/

/-- **C8** (confirmed).  Round trip: for every in-memory document store
state, serializing it (`_save`) and reloading the result (`_load`) reproduces
an equivalent state — the same ids, each mapped to a document with the same
`page_content` and the same `metadata`. -/
theorem docstore_save_load_roundtrip (store : List (Str × Document)) :
    docstoreLoad (docstoreSave store) = store := by
  show (List.map _ _) = store
  rw [List.map_map]
  conv_rhs => rw [(List.map_id store).symm]
  refine List.map_congr_left ?_
  intro e _
  have hkeys : ("page_content".toList : Str) ≠ "metadata".toList := by decide
  simp [jsonFind, jsonAsStr, jsonAsMeta, hkeys, List.map_map,
    Function.comp_def, Prod.mk.eta]

/-! ## Claim C5: reranker clamping and graceful degradation -/

/-- **C5** (confirmed).  The reranker never errors when `top_k` exceeds the
number of candidates — the returned length is always `min top_k
(number of candidates)` — and whenever the external scorer is unavailable or
throws, `rerank_results` returns the first `top_k` candidates in their
pre-rerank input order. -/
theorem rerank_clamps_and_degrades (scorer : Scorer) (q : Str)
    (docs : List Document) (top_k : Nat) :
    (rerank_results scorer q docs top_k).length = min top_k docs.length ∧
    ((scorer = Scorer.unavailable ∨ scorer = Scorer.failing) →
      rerank_results scorer q docs top_k = docs.take top_k) := by
  constructor
  · by_cases h : docs = []
    · subst h; simp [rerank_results]
    · cases scorer with
      | unavailable => simp [rerank_results, h, List.length_take]
      | failing =>
        simp only [rerank_results, h, if_neg, ite_false, List.length_take]
        omega
      | working f =>
        simp only [rerank_results, h, ite_false, List.length_map,
          List.length_take, List.length_insertionSort]
        omega
  · rintro (rfl | rfl)
    · by_cases h : docs = [] <;> simp [rerank_results, h]
    · by_cases h : docs = []
      · subst h; simp [rerank_results]
      · simp only [rerank_results, h, ite_false]
        rcases le_total top_k docs.length with hle | hle
        · rw [min_eq_left hle]
        · rw [min_eq_right hle, List.take_of_length_le hle,
            List.take_of_length_le le_rfl]

/-- **C5 witness**: a throwing scorer on two candidates with `top_k = 5`
returns both candidates in input order, of length `min 5 2`. -/
theorem rerank_clamps_and_degrades_witness :
    (rerank_results Scorer.failing ['q']
      [⟨['a'], []⟩, ⟨['b'], []⟩] 5).length = min 5 2 ∧
    rerank_results Scorer.failing ['q'] [⟨['a'], []⟩, ⟨['b'], []⟩] 5 =
      [⟨['a'], []⟩, ⟨['b'], []⟩] := by
  have h := rerank_clamps_and_degrades Scorer.failing ['q']
    [⟨['a'], []⟩, ⟨['b'], []⟩] 5
  exact ⟨h.1, (h.2 (Or.inr rfl)).trans rfl⟩

/-! ## Claim C2: one-signal fallback of `hybrid_search` (corrected)

The claim says the other signal's list is returned *unchanged*; the code
returns its first `k` elements (`vector_results[:k]` /
`bm25_results[:k]`), and the searches are issued with `k*2`, so the list can
exceed `k` and be truncated. -/

/-- **C2 counterexample**: with the BM25 signal empty and two vector results
but `k = 1`, the output is not the vector list unchanged. -/
theorem hybrid_one_signal_counterexample :
    ¬ (hybridCombine [⟨['a'], []⟩, ⟨['b'], []⟩] [] 1 =
        [⟨['a'], []⟩, ⟨['b'], []⟩]) := by decide

/-- **C2** (corrected).  Whenever at least one of the two signal lists is
empty, `hybrid_search` skips fusion and returns the first `k` elements of the
other signal's list; in particular, with the embedding signal unavailable and
the keyword signal returning at most `k` ranked items, the output equals the
keyword signal's output unchanged. -/
theorem hybrid_one_signal_returns_other_truncated (v : List Document)
    (b : List (Document × ℚ)) (k : Nat) (hone : b = [] ∨ v = []) :
    hybridCombine v b k =
      (if b = [] then v.take k else (b.map Prod.fst).take k) ∧
    (v = [] → b.length ≤ k → hybridCombine v b k = b.map Prod.fst) := by
  constructor
  · rcases hone with rfl | rfl
    · simp [hybridCombine]
    · by_cases hb : b = [] <;> simp [hybridCombine, hb]
  · rintro rfl hlen
    by_cases hb : b = []
    · subst hb; simp [hybridCombine]
    · simp only [hybridCombine, hb, ite_false, ite_true]
      exact List.take_of_length_le (by simpa using hlen)

/-- **C2 witness**: embedding signal unavailable (empty vector list), keyword
signal returning 3 ranked items, `k = 20`: the output is the keyword
signal's three documents unchanged. -/
theorem hybrid_one_signal_witness :
    hybridCombine [] [(⟨['x'], []⟩, 5), (⟨['y'], []⟩, 4), (⟨['z'], []⟩, 3)] 20 =
      [⟨['x'], []⟩, ⟨['y'], []⟩, ⟨['z'], []⟩] := by
  have h := hybrid_one_signal_returns_other_truncated []
    [(⟨['x'], []⟩, 5), (⟨['y'], []⟩, 4), (⟨['z'], []⟩, 3)] 20 (Or.inr rfl)
  exact (h.2 rfl (by decide)).trans rfl

/-! ## Claim C7: parent chunks respect the minimum length -/

/-- Stripping never lengthens a string. -/
theorem pyStrip_length_le (s : Str) : (pyStrip s).length ≤ s.length := by
  have h1 := (List.dropWhile_sublist (l := (s.dropWhile isPySpace).reverse)
    isPySpace).length_le
  have h2 := (List.dropWhile_sublist (l := s) isPySpace).length_le
  simp only [pyStrip, List.length_reverse] at h1 ⊢
  omega

/-- Every document produced by the section filter has text at least 100
characters long. -/
theorem buildParents_min_length (filename file_hash vehicle_model : Str) :
    ∀ (secs : List Section) (ctr : Nat) (d : Document),
      d ∈ buildParents filename file_hash vehicle_model ctr secs →
      100 ≤ d.page_content.length := by
  intro secs
  induction secs with
  | nil => intro ctr d hd; simp [buildParents] at hd
  | cons s rest ih =>
    intro ctr d hd
    by_cases hs : (pyStrip s.text).length < 100
    · have heq : buildParents filename file_hash vehicle_model ctr (s :: rest) =
          buildParents filename file_hash vehicle_model ctr rest := by
        simp [buildParents, hs]
      exact ih ctr d (heq ▸ hd)
    · have heq : buildParents filename file_hash vehicle_model ctr (s :: rest) =
          mkParentDoc filename file_hash vehicle_model ctr s ::
            buildParents filename file_hash vehicle_model (ctr + 1) rest := by
        simp [buildParents, hs]
      rw [heq] at hd
      rcases List.mem_cons.mp hd with hd | hd
      · subst hd
        have := pyStrip_length_le s.text
        simp only [mkParentDoc]
        omega
      · exact ih (ctr + 1) d hd

/-- **C7** (confirmed).  For every parent chunking input, every `ParentChunk`
produced by `create_parent_chunks` has text of length at least the minimum
threshold of 100 characters; sections whose stripped text is shorter are
discarded and never stored. -/
theorem create_parent_chunks_min_length (pages : List Page)
    (filename file_hash : Str) (d : Document)
    (hd : d ∈ create_parent_chunks pages filename file_hash) :
    100 ≤ d.page_content.length :=
  buildParents_min_length filename file_hash (detect_vehicle_model filename)
    _ 0 d hd


/-- **C7 witness**: a one-page manual whose "Braking System" section holds
100 characters of body text yields a parent chunk of length 100 ≥ 100. -/
theorem create_parent_chunks_min_length_witness :
    100 ≤ (Document.mk (List.replicate 100 'a')
      [ (parentIdKey, "abcdef12_parent_0".toList)
      , ("type".toList, "parent".toList)
      , ("source_file".toList, "duster.pdf".toList)
      , ("file_hash".toList, "abcdef1234".toList)
      , ("chapter".toList, "Braking System".toList)
      , (sectionTitleKey, "Braking System".toList)
      , ("section_code".toList, "unknown".toList)
      , ("page_numbers".toList, "1".toList)
      , ("vehicle_model".toList, "Dacia Duster".toList)
      , ("char_count".toList, "100".toList) ]).page_content.length :=
  create_parent_chunks_min_length
    [⟨1, "Braking System\n".toList ++ List.replicate 100 'a'⟩]
    ("duster.pdf".toList) ("abcdef1234".toList) _ (by decide)

/-! ## Claims C4 and C10: context assembly -/

/-- Once a shared parent id is in `seen_parents`, every remaining child with
that parent id is skipped. -/
theorem buildContextParts_all_seen (store : List (Str × Document)) (p : Str)
    (hp : p ≠ []) :
    ∀ (children : List Document) (i : Nat) (seen : List Str),
      (∀ c ∈ children, metaGet c.metadata parentIdKey = some p) → p ∈ seen →
      buildContextParts store i seen children = [] := by
  intro children
  induction children with
  | nil => intro i seen _ _; rfl
  | cons c rest ih =>
    intro i seen hall hseen
    have hc := hall c (List.mem_cons_self c rest)
    simp only [buildContextParts, hc, ne_eq, hp, not_false_iff, ite_true,
      hseen, if_pos]
    exact ih (i + 1) seen (fun c' hc' => hall c' (List.mem_cons_of_mem _ hc')) hseen

/-- When every child of a nonempty list carries the same truthy parent id and
the parent is in the store, the context parts are exactly one full-section
entry for that parent. -/
theorem buildContextParts_single_parent (store : List (Str × Document))
    (c0 : Document) (rest : List Document) (p : Str) (pdoc : Document)
    (hall : ∀ c ∈ c0 :: rest, metaGet c.metadata parentIdKey = some p)
    (hp : p ≠ []) (hfound : storeGet store p = some pdoc) :
    buildContextParts store 0 [] (c0 :: rest) =
      [parentContextPart 1 (sectionTitleOf c0) pdoc.page_content] := by
  have hc0 := hall c0 (List.mem_cons_self c0 rest)
  simp only [buildContextParts, hc0, ne_eq, hp, not_false_iff, ite_true,
    List.not_mem_nil, if_neg, ite_false, hfound]
  rw [buildContextParts_all_seen store p hp rest 1 [p]
    (fun c hc => hall c (List.mem_cons_of_mem _ hc)) (List.mem_singleton.mpr rfl)]

/-- A child whose parent id is absent from the store always contributes its
own text: `seen_parents` only ever holds ids that were found, so the missing
id can never be in it. -/
theorem buildContextParts_missing_child_mem (store : List (Str × Document)) :
    ∀ (children : List Document) (i0 : Nat) (seen : List Str),
      (∀ q ∈ seen, (storeGet store q).isSome) →
      ∀ (i : Nat) (c : Document) (p : Str),
        children[i]? = some c →
        metaGet c.metadata parentIdKey = some p → p ≠ [] →
        storeGet store p = none →
        childContextPart (i0 + i + 1) (sectionTitleOf c) c.page_content ∈
          buildContextParts store i0 seen children := by
  intro children
  induction children with
  | nil => intro i0 seen _ i c p hget _ _ _; simp at hget
  | cons c0 rest ih =>
    intro i0 seen hseen i c p hget hcp hp hmiss
    cases i with
    | zero =>
      rw [List.getElem?_cons_zero, Option.some.injEq] at hget
      have hnot : p ∉ seen := by
        intro hin
        have h := hseen p hin
        rw [hmiss] at h
        simp at h
      have hcp0 : metaGet c0.metadata parentIdKey = some p := by
        rw [hget]; exact hcp
      have heq : buildContextParts store i0 seen (c0 :: rest) =
          childContextPart (i0 + 1) (sectionTitleOf c0) c0.page_content ::
            buildContextParts store (i0 + 1) seen rest := by
        simp [buildContextParts, hcp0, hp, hnot, hmiss]
      rw [heq, ← hget]
      have harith : i0 + 0 + 1 = i0 + 1 := by omega
      rw [harith]
      exact List.mem_cons_self _ _
    | succ j =>
      rw [List.getElem?_cons_succ] at hget
      have harith : i0 + 1 + j + 1 = i0 + (j + 1) + 1 := by omega
      rcases h0 : metaGet c0.metadata parentIdKey with _ | p0
      · have heq : buildContextParts store i0 seen (c0 :: rest) =
            childContextPart (i0 + 1) (sectionTitleOf c0) c0.page_content ::
              buildContextParts store (i0 + 1) seen rest := by
          simp [buildContextParts, h0]
        rw [heq]
        exact List.mem_cons_of_mem _
          (harith ▸ ih (i0 + 1) seen hseen j c p hget hcp hp hmiss)
      · by_cases hp0 : p0 = []
        · subst hp0
          have heq : buildContextParts store i0 seen (c0 :: rest) =
              childContextPart (i0 + 1) (sectionTitleOf c0) c0.page_content ::
                buildContextParts store (i0 + 1) seen rest := by
            simp [buildContextParts, h0]
          rw [heq]
          exact List.mem_cons_of_mem _
            (harith ▸ ih (i0 + 1) seen hseen j c p hget hcp hp hmiss)
        · by_cases hin : p0 ∈ seen
          · have heq : buildContextParts store i0 seen (c0 :: rest) =
                buildContextParts store (i0 + 1) seen rest := by
              simp [buildContextParts, h0, hp0, hin]
            rw [heq]
            exact harith ▸ ih (i0 + 1) seen hseen j c p hget hcp hp hmiss
          · rcases hst : storeGet store p0 with _ | pd
            · have heq : buildContextParts store i0 seen (c0 :: rest) =
                  childContextPart (i0 + 1) (sectionTitleOf c0) c0.page_content ::
                    buildContextParts store (i0 + 1) seen rest := by
                simp [buildContextParts, h0, hp0, hin, hst]
              rw [heq]
              exact List.mem_cons_of_mem _
                (harith ▸ ih (i0 + 1) seen hseen j c p hget hcp hp hmiss)
            · have heq : buildContextParts store i0 seen (c0 :: rest) =
                  parentContextPart (i0 + 1) (sectionTitleOf c0) pd.page_content ::
                    buildContextParts store (i0 + 1) (p0 :: seen) rest := by
                simp [buildContextParts, h0, hp0, hin, hst]
              rw [heq]
              have hseen' : ∀ q ∈ p0 :: seen, (storeGet store q).isSome := by
                intro q hq
                rcases List.mem_cons.mp hq with rfl | hq
                · rw [hst]; rfl
                · exact hseen q hq
              exact List.mem_cons_of_mem _
                (harith ▸ ih (i0 + 1) (p0 :: seen) hseen' j c p hget hcp hp hmiss)

/-- **C4** (confirmed).  Context assembly: for every nonempty list of ranked
children that all share one parent id whose parent chunk is present in the
document store, the assembled context consists of exactly one context part,
carrying that parent's full text; and a ranked child whose parent id is
absent from the store contributes its own text to the context instead of
being dropped. -/
theorem build_context_single_parent_and_fallback (store : List (Str × Document))
    (c0 : Document) (rest : List Document) (p : Str) (pdoc : Document)
    (hall : ∀ c ∈ c0 :: rest, metaGet c.metadata parentIdKey = some p)
    (hp : p ≠ []) (hfound : storeGet store p = some pdoc) :
    (buildContextParts store 0 [] (c0 :: rest) =
        [parentContextPart 1 (sectionTitleOf c0) pdoc.page_content] ∧
      build_context_with_parents store (c0 :: rest) =
        parentContextPart 1 (sectionTitleOf c0) pdoc.page_content) ∧
    (∀ (children : List Document) (i : Nat) (c : Document) (q : Str),
      children[i]? = some c →
      metaGet c.metadata parentIdKey = some q → q ≠ [] →
      storeGet store q = none →
      childContextPart (i + 1) (sectionTitleOf c) c.page_content ∈
        buildContextParts store 0 [] children) := by
  constructor
  · have h1 := buildContextParts_single_parent store c0 rest p pdoc hall hp hfound
    refine ⟨h1, ?_⟩
    rw [build_context_with_parents, h1]
    rfl
  · intro children i c q hget hcq hq hmiss
    have h := buildContextParts_missing_child_mem store children 0 []
      (by intro q hq; simp at hq) i c q hget hcq hq hmiss
    simpa using h

/-- **C4 witness**: two children sharing stored parent `p1` assemble to the
single full-section part; a child with the absent parent `p2` contributes its
own text. -/
theorem build_context_single_parent_and_fallback_witness :
    buildContextParts [("p1".toList, ⟨"parent text".toList, []⟩)] 0 []
        [⟨"childA".toList, [(parentIdKey, "p1".toList), (sectionTitleKey, "Sec".toList)]⟩,
         ⟨"childB".toList, [(parentIdKey, "p1".toList)]⟩] =
      [parentContextPart 1 ("Sec".toList) ("parent text".toList)] ∧
    childContextPart 1 ("Unknown".toList) ("childC".toList) ∈
      buildContextParts [("p1".toList, ⟨"parent text".toList, []⟩)] 0 []
        [⟨"childC".toList, [(parentIdKey, "p2".toList)]⟩] := by
  have h := build_context_single_parent_and_fallback
    [("p1".toList, ⟨"parent text".toList, []⟩)]
    ⟨"childA".toList, [(parentIdKey, "p1".toList), (sectionTitleKey, "Sec".toList)]⟩
    [⟨"childB".toList, [(parentIdKey, "p1".toList)]⟩]
    ("p1".toList) ⟨"parent text".toList, []⟩
    (by decide) (by decide) (by decide)
  exact ⟨h.1.1, h.2 [⟨"childC".toList, [(parentIdKey, "p2".toList)]⟩] 0
    ⟨"childC".toList, [(parentIdKey, "p2".toList)]⟩ ("p2".toList)
    rfl (by decide) (by decide) (by decide)⟩

/-- When every child shares one truthy parent id that is absent from the
store, no id is ever recorded as seen and each child appends its own text. -/
theorem buildContextParts_all_missing (store : List (Str × Document)) (p : Str)
    (hp : p ≠ []) (hmiss : storeGet store p = none) :
    ∀ (children : List Document) (i0 : Nat) (seen : List Str),
      (∀ c ∈ children, metaGet c.metadata parentIdKey = some p) → p ∉ seen →
      buildContextParts store i0 seen children =
        (children.enumFrom i0).map
          (fun e => childContextPart (e.1 + 1) (sectionTitleOf e.2) e.2.page_content) := by
  intro children
  induction children with
  | nil => intro i0 seen _ _; rfl
  | cons c rest ih =>
    intro i0 seen hall hnot
    have hc := hall c (List.mem_cons_self c rest)
    have heq : buildContextParts store i0 seen (c :: rest) =
        childContextPart (i0 + 1) (sectionTitleOf c) c.page_content ::
          buildContextParts store (i0 + 1) seen rest := by
      simp [buildContextParts, hc, hp, hnot, hmiss]
    rw [heq, List.enumFrom_cons, List.map_cons,
      ih (i0 + 1) seen (fun c' hc' => hall c' (List.mem_cons_of_mem _ hc')) hnot]

/-- **C10** (confirmed).  A parent id is recorded as already-included only
when the parent document is found in the store; for an input whose children
all share a truthy parent id absent from the store, every child appends its
own text as a separate context entry. -/
theorem build_context_missing_parent_each_child (store : List (Str × Document))
    (children : List Document) (p : Str)
    (hall : ∀ c ∈ children, metaGet c.metadata parentIdKey = some p)
    (hp : p ≠ []) (hmiss : storeGet store p = none) :
    buildContextParts store 0 [] children =
      children.enum.map
        (fun e => childContextPart (e.1 + 1) (sectionTitleOf e.2) e.2.page_content) :=
  buildContextParts_all_missing store p hp hmiss children 0 [] hall
    (List.not_mem_nil p)

/-- **C10 witness**: two children with the absent parent id `p9` each
contribute their own text as separate context parts. -/
theorem build_context_missing_parent_each_child_witness :
    buildContextParts [] 0 []
        [⟨"text one".toList, [(parentIdKey, "p9".toList)]⟩,
         ⟨"text two".toList, [(parentIdKey, "p9".toList)]⟩] =
      [childContextPart 1 ("Unknown".toList) ("text one".toList),
       childContextPart 2 ("Unknown".toList) ("text two".toList)] := by
  have h := build_context_missing_parent_each_child []
    [⟨"text one".toList, [(parentIdKey, "p9".toList)]⟩,
     ⟨"text two".toList, [(parentIdKey, "p9".toList)]⟩]
    ("p9".toList) (by decide) (by decide) rfl
  exact h.trans (by decide)

/-! ## Claims C1 and C9: reciprocal rank fusion -/

/-- Inserting a fresh key appends an entry. -/
theorem rrfInsert_of_not_mem (acc : List RrfEntry) (key : Str) (doc : Document)
    (s : ℚ) (h : key ∉ acc.map Prod.fst) :
    rrfInsert acc key doc s = acc ++ [(key, doc, s)] := by
  simp [rrfInsert, h]

/-- With pairwise fresh ids, the vector pass appends one entry per document,
scored by its zero-based rank. -/
theorem rrfPassVector_of_fresh (w : ℚ) (k : Nat) :
    ∀ (ds : List Document) (r : Nat) (acc : List RrfEntry),
      (∀ d ∈ ds, rrfId d ∉ acc.map Prod.fst) → (ds.map rrfId).Nodup →
      rrfPassVector w k r ds acc =
        acc ++ (ds.enumFrom r).map
          (fun e => (rrfId e.2, e.2, w * (1 / ((k : ℚ) + (e.1 : ℚ) + 1)))) := by
  intro ds
  induction ds with
  | nil => intro r acc _ _; simp [rrfPassVector]
  | cons d rest ih =>
    intro r acc hfresh hnodup
    rw [rrfPassVector, rrfInsert_of_not_mem acc (rrfId d) d _
      (hfresh d (List.mem_cons_self d rest))]
    rw [List.map_cons, List.nodup_cons] at hnodup
    have hfresh' : ∀ d' ∈ rest, rrfId d' ∉
        (acc ++ [(rrfId d, d, w * (1 / ((k : ℚ) + (r : ℚ) + 1)))]).map Prod.fst := by
      intro d' hd'
      rw [List.map_append, List.mem_append]
      rintro (h | h)
      · exact hfresh d' (List.mem_cons_of_mem _ hd') h
      · simp only [List.map_cons, List.map_nil, List.mem_singleton] at h
        exact hnodup.1 (h ▸ List.mem_map_of_mem rrfId hd')
    rw [ih (r + 1) _ hfresh' hnodup.2, List.enumFrom_cons, List.map_cons,
      List.append_assoc, List.singleton_append]

/-- With pairwise fresh ids, the BM25 pass appends one entry per document,
scored by its zero-based rank. -/
theorem rrfPassBm25_of_fresh (w : ℚ) (k : Nat) :
    ∀ (ps : List (Document × ℚ)) (r : Nat) (acc : List RrfEntry),
      (∀ p ∈ ps, rrfId p.1 ∉ acc.map Prod.fst) →
      (ps.map (fun p => rrfId p.1)).Nodup →
      rrfPassBm25 w k r ps acc =
        acc ++ (ps.enumFrom r).map
          (fun e => (rrfId e.2.1, e.2.1, w * (1 / ((k : ℚ) + (e.1 : ℚ) + 1)))) := by
  intro ps
  induction ps with
  | nil => intro r acc _ _; simp [rrfPassBm25]
  | cons p rest ih =>
    intro r acc hfresh hnodup
    rw [rrfPassBm25, rrfInsert_of_not_mem acc (rrfId p.1) p.1 _
      (hfresh p (List.mem_cons_self p rest))]
    rw [List.map_cons, List.nodup_cons] at hnodup
    have hfresh' : ∀ p' ∈ rest, rrfId p'.1 ∉
        (acc ++ [(rrfId p.1, p.1, w * (1 / ((k : ℚ) + (r : ℚ) + 1)))]).map Prod.fst := by
      intro p' hp'
      rw [List.map_append, List.mem_append]
      rintro (h | h)
      · exact hfresh p' (List.mem_cons_of_mem _ hp') h
      · simp only [List.map_cons, List.map_nil, List.mem_singleton] at h
        exact hnodup.1 (h ▸ List.mem_map_of_mem (fun q => rrfId q.1) hp')
    rw [ih (r + 1) _ hfresh' hnodup.2, List.enumFrom_cons, List.map_cons,
      List.append_assoc, List.singleton_append]

/-- The accumulated `doc_scores` when all ids are distinct: one entry per
input document, in input order. -/
theorem rrfEntries_of_disjoint (v : List Document) (b : List (Document × ℚ))
    (k : Nat) (vw bw : ℚ)
    (hv : (v.map rrfId).Nodup) (hb : (b.map (fun p => rrfId p.1)).Nodup)
    (hdisj : ∀ d ∈ v, ∀ p ∈ b, rrfId d ≠ rrfId p.1) :
    rrfEntries v b k vw bw =
      (v.enumFrom 0).map
        (fun e => (rrfId e.2, e.2, vw * (1 / ((k : ℚ) + (e.1 : ℚ) + 1)))) ++
      (b.enumFrom 0).map
        (fun e => (rrfId e.2.1, e.2.1, bw * (1 / ((k : ℚ) + (e.1 : ℚ) + 1)))) := by
  rw [rrfEntries]
  rw [rrfPassVector_of_fresh vw k v 0 [] (by simp) hv]
  rw [List.nil_append]
  refine rrfPassBm25_of_fresh bw k b 0 _ ?_ hb
  intro p hp
  have hkeys : ((v.enumFrom 0).map
      (fun e : Nat × Document =>
        (rrfId e.2, e.2, vw * (1 / ((k : ℚ) + (e.1 : ℚ) + 1))))).map Prod.fst =
      v.map rrfId := by
    rw [List.map_map]
    have h2 : ((v.enumFrom 0).map Prod.snd).map rrfId = v.map rrfId := by
      rw [List.enumFrom_map_snd]
    rw [← h2, List.map_map]
    rfl
  rw [hkeys]
  intro hmem
  rcases List.mem_map.mp hmem with ⟨d, hd, hid⟩
  exact hdisj d hd p hp hid

/-- **C1** (confirmed).  For candidate lists carrying pairwise-distinct
`chunk_id` values with none shared across the two lists,
`reciprocal_rank_fusion` with `K = 60` and weights `0.5`/`0.5` returns
exactly `m + n` documents; the accumulated score table holds, for each
document, exactly `weight / (60 + rank + 1)` at its zero-based rank in its
single source list; the output is sorted by that score, descending; and a
document appearing in both lists receives the sum of its two contributions
(shown for the two-singleton configuration sharing one id). -/
theorem reciprocal_rank_fusion_disjoint (v : List Document)
    (b : List (Document × ℚ))
    (hvpresent : ∀ d ∈ v, (metaGet d.metadata chunkIdKey).isSome)
    (hbpresent : ∀ p ∈ b, (metaGet p.1.metadata chunkIdKey).isSome)
    (hv : (v.map rrfId).Nodup) (hb : (b.map (fun p => rrfId p.1)).Nodup)
    (hdisj : ∀ d ∈ v, ∀ p ∈ b, rrfId d ≠ rrfId p.1) :
    (reciprocal_rank_fusion v b 60 (1/2) (1/2)).length = v.length + b.length ∧
    rrfEntries v b 60 (1/2) (1/2) =
      (v.enumFrom 0).map
        (fun e => (rrfId e.2, e.2, (1/2 : ℚ) / (60 + (e.1 : ℚ) + 1))) ++
      (b.enumFrom 0).map
        (fun e => (rrfId e.2.1, e.2.1, (1/2 : ℚ) / (60 + (e.1 : ℚ) + 1))) ∧
    (rrfSorted v b 60 (1/2) (1/2)).Pairwise scoreGe ∧
    (∀ (d1 d2 : Document) (s : ℚ), rrfId d1 = rrfId d2 →
      rrfEntries [d1] [(d2, s)] 60 (1/2) (1/2) =
        [(rrfId d1, d2, (1/2 : ℚ) / 61 + (1/2 : ℚ) / 61)]) := by
  have hentries := rrfEntries_of_disjoint v b 60 (1/2) (1/2) hv hb hdisj
  have hentries' : rrfEntries v b 60 (1/2) (1/2) =
      (v.enumFrom 0).map
        (fun e => (rrfId e.2, e.2, (1/2 : ℚ) / (60 + (e.1 : ℚ) + 1))) ++
      (b.enumFrom 0).map
        (fun e => (rrfId e.2.1, e.2.1, (1/2 : ℚ) / (60 + (e.1 : ℚ) + 1))) := by
    rw [hentries]
    congr 1
    · refine List.map_congr_left ?_
      intro e _
      have : ((60 : ℕ) : ℚ) = (60 : ℚ) := by norm_num
      rw [mul_one_div, this]
    · refine List.map_congr_left ?_
      intro e _
      have : ((60 : ℕ) : ℚ) = (60 : ℚ) := by norm_num
      rw [mul_one_div, this]
  refine ⟨?_, hentries', List.sorted_insertionSort scoreGe _, ?_⟩
  · rw [reciprocal_rank_fusion, List.length_map, rrfSorted,
      List.length_insertionSort, List.length_map, hentries',
      List.length_append, List.length_map, List.length_map]
    rw [show ∀ (l : List Document), (l.enumFrom 0).length = l.length from
      fun l => List.enumFrom_length]
    rw [show ((b.enumFrom 0).length = b.length) from List.enumFrom_length]
  · intro d1 d2 s heq
    rw [rrfEntries]
    rw [show rrfPassVector ((1:ℚ)/2) 60 0 [d1] [] =
        [(rrfId d1, d1, ((1:ℚ)/2) * (1 / (((60:ℕ):ℚ) + ((0:ℕ):ℚ) + 1)))] from rfl]
    rw [show rrfPassBm25 ((1:ℚ)/2) 60 0 [(d2, s)]
          [(rrfId d1, d1, ((1:ℚ)/2) * (1 / (((60:ℕ):ℚ) + ((0:ℕ):ℚ) + 1)))] =
        rrfInsert [(rrfId d1, d1, ((1:ℚ)/2) * (1 / (((60:ℕ):ℚ) + ((0:ℕ):ℚ) + 1)))]
          (rrfId d2) d2 (((1:ℚ)/2) * (1 / (((60:ℕ):ℚ) + ((0:ℕ):ℚ) + 1))) from rfl]
    rw [rrfInsert, if_pos (by simp [heq])]
    simp only [List.map_cons, List.map_nil]
    rw [if_pos (by simp [heq] : ((rrfId d1, d1,
      ((1:ℚ)/2) * (1 / (((60:ℕ):ℚ) + ((0:ℕ):ℚ) + 1))) : RrfEntry).1 = rrfId d2)]
    rw [List.cons.injEq]
    refine ⟨?_, rfl⟩
    rw [Prod.mk.injEq, Prod.mk.injEq]
    refine ⟨heq.symm, rfl, ?_⟩
    push_cast
    norm_num

/-- **C1 witness**: two singleton lists with distinct chunk ids fuse into
`1 + 1` documents. -/
theorem reciprocal_rank_fusion_disjoint_witness :
    (reciprocal_rank_fusion
      [⟨"text a".toList, [(chunkIdKey, "a".toList)]⟩]
      [(⟨"text b".toList, [(chunkIdKey, "b".toList)]⟩, 3)]
      60 (1/2) (1/2)).length = 1 + 1 := by
  have h := reciprocal_rank_fusion_disjoint
    [⟨"text a".toList, [(chunkIdKey, "a".toList)]⟩]
    [(⟨"text b".toList, [(chunkIdKey, "b".toList)]⟩, 3)]
    (by decide) (by decide) (by decide) (by decide) (by decide)
  exact h.1

/-! ## Claim C9: fallback identity in fusion (corrected)

A document lacking `chunk_id` is keyed by its first 50 characters, and two
distinct documents sharing that prefix are fused into a single entry with
summed contributions — but the dict update `doc_scores[doc_id] = (doc, ...)`
stores the *newly seen* document object, so the last-seen document, not the
first-seen one, appears in the output. -/

/-- **C9 counterexample**: no pair of *distinct* documents without `chunk_id`
sharing their first 50 characters ever yields the first-seen document in the
fused output of the two-element vector list — the stored document is always
the one seen last. -/
theorem rrf_first_seen_counterexample :
    ¬ ∃ (d1 d2 : Document), d1 ≠ d2 ∧
      metaGet d1.metadata chunkIdKey = none ∧
      metaGet d2.metadata chunkIdKey = none ∧
      d1.page_content.take 50 = d2.page_content.take 50 ∧
      reciprocal_rank_fusion [d1, d2] [] 60 (1/2) (1/2) = [d1] := by
  rintro ⟨d1, d2, hne, h1, h2, h50, heq⟩
  have hid : rrfId d1 = rrfId d2 := by
    rw [rrfId, rrfId, h1, h2]
    simpa using h50
  have hone : reciprocal_rank_fusion [d1, d2] [] 60 (1/2) (1/2) = [d2] := by
    rw [reciprocal_rank_fusion, rrfSorted, rrfEntries]
    rw [show rrfPassVector ((1:ℚ)/2) 60 0 [d1, d2] [] =
        rrfInsert
          (rrfInsert [] (rrfId d1) d1
            (((1:ℚ)/2) * (1 / (((60:ℕ):ℚ) + ((0:ℕ):ℚ) + 1))))
          (rrfId d2) d2
          (((1:ℚ)/2) * (1 / (((60:ℕ):ℚ) + ((1:ℕ):ℚ) + 1))) from rfl]
    rw [rrfInsert_of_not_mem [] (rrfId d1) d1 _ (by simp), List.nil_append]
    rw [rrfInsert, if_pos (by simp [hid])]
    simp only [List.map_cons, List.map_nil]
    rw [if_pos (show ((rrfId d1, d1,
        ((1:ℚ)/2) * (1 / (((60:ℕ):ℚ) + ((0:ℕ):ℚ) + 1))) : RrfEntry).1 = rrfId d2
      from by simpa using hid)]
    rfl
  rw [hone] at heq
  have : d2 = d1 := by injection heq
  exact hne this.symm

/-- **C9** (corrected).  A document lacking a `chunk_id` metadata key is
identified by the first 50 characters of its `page_content`; two distinct
documents whose texts share their first 50 characters are fused as one entry
whose contributions are summed, and the *last-seen* document object appears
in the output. -/
theorem rrf_shared_prefix_fused_last_seen (d1 d2 : Document)
    (h1 : metaGet d1.metadata chunkIdKey = none)
    (h2 : metaGet d2.metadata chunkIdKey = none)
    (h50 : d1.page_content.take 50 = d2.page_content.take 50) :
    rrfEntries [d1, d2] [] 60 (1/2) (1/2) =
      [(d2.page_content.take 50, d2, (1/2 : ℚ) / 61 + (1/2 : ℚ) / 62)] ∧
    reciprocal_rank_fusion [d1, d2] [] 60 (1/2) (1/2) = [d2] := by
  have hid : rrfId d1 = rrfId d2 := by
    rw [rrfId, rrfId, h1, h2]
    simpa using h50
  have hid2 : rrfId d2 = d2.page_content.take 50 := by
    rw [rrfId, h2]
    rfl
  have hentries : rrfEntries [d1, d2] [] 60 (1/2) (1/2) =
      [(d2.page_content.take 50, d2, (1/2 : ℚ) / 61 + (1/2 : ℚ) / 62)] := by
    rw [rrfEntries]
    rw [show rrfPassVector ((1:ℚ)/2) 60 0 [d1, d2] [] =
        rrfInsert
          (rrfInsert [] (rrfId d1) d1
            (((1:ℚ)/2) * (1 / (((60:ℕ):ℚ) + ((0:ℕ):ℚ) + 1))))
          (rrfId d2) d2
          (((1:ℚ)/2) * (1 / (((60:ℕ):ℚ) + ((1:ℕ):ℚ) + 1))) from rfl]
    rw [rrfInsert_of_not_mem [] (rrfId d1) d1 _ (by simp), List.nil_append]
    rw [rrfInsert, if_pos (by simp [hid])]
    simp only [List.map_cons, List.map_nil]
    rw [if_pos (show ((rrfId d1, d1,
        ((1:ℚ)/2) * (1 / (((60:ℕ):ℚ) + ((0:ℕ):ℚ) + 1))) : RrfEntry).1 = rrfId d2
      from by simpa using hid)]
    rw [show rrfPassBm25 ((1:ℚ)/2) 60 0 [] = id from rfl, id_eq]
    rw [List.cons.injEq]
    refine ⟨?_, rfl⟩
    rw [Prod.mk.injEq, Prod.mk.injEq]
    refine ⟨hid2, rfl, ?_⟩
    push_cast
    norm_num
  refine ⟨hentries, ?_⟩
  rw [reciprocal_rank_fusion, rrfSorted, hentries]
  rfl

/-- **C9 witness**: two documents of lengths 55 and 55 sharing their first 50
characters, neither carrying a `chunk_id`, fuse into the single last-seen
document. -/
theorem rrf_shared_prefix_fused_last_seen_witness :
    reciprocal_rank_fusion
      [⟨List.replicate 55 'a', []⟩,
       ⟨List.replicate 50 'a' ++ List.replicate 5 'b', []⟩] [] 60 (1/2) (1/2) =
      [⟨List.replicate 50 'a' ++ List.replicate 5 'b', []⟩] :=
  (rrf_shared_prefix_fused_last_seen
    ⟨List.replicate 55 'a', []⟩
    ⟨List.replicate 50 'a' ++ List.replicate 5 'b', []⟩
    rfl rfl (by decide)).2

/-! ## Claims C3 and C6: deduplication

String-level lemmas about `pyStrip`, `pySplit`, `pyLower` and `pyJoin`,
leading to: tokenization is invariant under stripping, lowering maps
tokenwise, the tokens produced are nonempty and whitespace-free, and
normalization is injective on token lists. -/

/-- Splitting an all-whitespace string flushes at most the pending word. -/
theorem pySplitAux_all_ws :
    ∀ (w : Str), (∀ c ∈ w, isPySpace c = true) →
      ∀ (acc : Str), pySplitAux w acc = if acc = [] then [] else [acc.reverse] := by
  intro w
  induction w with
  | nil => intro _ acc; rfl
  | cons c rest ih =>
    intro hw acc
    have hc : isPySpace c = true := hw c (List.mem_cons_self c rest)
    have hrest : ∀ c' ∈ rest, isPySpace c' = true :=
      fun c' hc' => hw c' (List.mem_cons_of_mem _ hc')
    by_cases hacc : acc = []
    · subst hacc
      simp only [pySplitAux, hc, ite_true, if_pos]
      rw [ih hrest []]
      rfl
    · simp only [pySplitAux, hc, ite_true, hacc, ite_false, if_neg hacc]
      rw [ih hrest []]
      rfl

/-- Trailing whitespace does not change the split. -/
theorem pySplitAux_append_ws (w : Str) (hw : ∀ c ∈ w, isPySpace c = true) :
    ∀ (l : Str) (acc : Str), pySplitAux (l ++ w) acc = pySplitAux l acc := by
  intro l
  induction l with
  | nil =>
    intro acc
    rw [List.nil_append, pySplitAux_all_ws w hw acc]
    rfl
  | cons c rest ih =>
    intro acc
    by_cases hc : isPySpace c = true
    · by_cases hacc : acc = []
      · subst hacc
        simp only [List.cons_append, pySplitAux, hc, ite_true]
        exact ih []
      · simp only [List.cons_append, pySplitAux, hc, ite_true, hacc, ite_false,
          List.append_eq]
        rw [ih []]
    · simp only [List.cons_append, pySplitAux, hc, ite_false,
        Bool.false_eq_true]
      exact ih (c :: acc)

/-- Leading whitespace does not change the split. -/
theorem pySplitAux_dropWhile (s : Str) :
    pySplitAux (s.dropWhile isPySpace) [] = pySplitAux s [] := by
  induction s with
  | nil => rfl
  | cons c rest ih =>
    by_cases hc : isPySpace c = true
    · rw [List.dropWhile_cons_of_pos hc]
      rw [ih]
      simp [pySplitAux, hc]
    · rw [List.dropWhile_cons_of_neg (by simpa using hc)]

/-- The front-stripped string is the stripped string plus whitespace. -/
theorem pyStrip_decomp (s : Str) :
    s.dropWhile isPySpace =
      pyStrip s ++ ((s.dropWhile isPySpace).reverse.takeWhile isPySpace).reverse ∧
    ∀ c ∈ ((s.dropWhile isPySpace).reverse.takeWhile isPySpace).reverse,
      isPySpace c = true := by
  constructor
  · conv_lhs => rw [← List.reverse_reverse (s.dropWhile isPySpace)]
    conv_lhs => rw [← List.takeWhile_append_dropWhile isPySpace
      (s.dropWhile isPySpace).reverse]
    rw [List.reverse_append]
    rfl
  · intro c hc
    exact List.mem_takeWhile_imp (List.mem_reverse.mp hc)

/-- Tokenization ignores stripping. -/
theorem pySplit_pyStrip (s : Str) : pySplit (pyStrip s) = pySplit s := by
  obtain ⟨hdec, hws⟩ := pyStrip_decomp s
  have h1 : pySplit s = pySplitAux (s.dropWhile isPySpace) [] :=
    (pySplitAux_dropWhile s).symm
  rw [h1]
  conv_rhs => rw [hdec]
  rw [pySplitAux_append_ws _ hws (pyStrip s) []]
  rfl

/-- Case folding preserves whitespace-ness. -/
theorem isPySpace_pyCharLower (c : Char) :
    isPySpace (pyCharLower c) = isPySpace c := by
  rw [pyCharLower]
  by_cases h : 65 ≤ c.toNat ∧ c.toNat ≤ 90
  · rw [if_pos h]
    have hval : (Char.ofNat (c.toNat + 32)).toNat = c.toNat + 32 := by
      unfold Char.ofNat
      rw [dif_pos (Or.inl (by omega : c.toNat + 32 < 0xd800))]
      rfl
    have hl : isPySpace (Char.ofNat (c.toNat + 32)) = false := by
      simp only [isPySpace, hval, Bool.or_eq_false_iff, decide_eq_false_iff_not]
      omega
    have hr : isPySpace c = false := by
      simp only [isPySpace, Bool.or_eq_false_iff, decide_eq_false_iff_not]
      omega
    rw [hl, hr]
  · rw [if_neg h]

/-- Splitting commutes with character-wise lowering. -/
theorem pySplitAux_map_lower :
    ∀ (l : Str) (acc : Str),
      pySplitAux (l.map pyCharLower) (acc.map pyCharLower) =
        (pySplitAux l acc).map (List.map pyCharLower) := by
  intro l
  induction l with
  | nil =>
    intro acc
    by_cases hacc : acc = []
    · subst hacc; rfl
    · have hacc' : acc.map pyCharLower ≠ [] := by
        simpa using hacc
      simp [pySplitAux, hacc, hacc', List.map_reverse]
  | cons c rest ih =>
    intro acc
    by_cases hc : isPySpace c = true
    · have hc' : isPySpace (pyCharLower c) = true := by
        rw [isPySpace_pyCharLower]; exact hc
      by_cases hacc : acc = []
      · subst hacc
        simp only [List.map_cons, List.map_nil, pySplitAux, hc, hc', ite_true]
        exact ih []
      · have hacc' : acc.map pyCharLower ≠ [] := by simpa using hacc
        simp only [List.map_cons, pySplitAux, hc, hc', ite_true, hacc,
          ite_false, hacc', List.map_reverse]
        rw [show (pySplitAux rest [] : List Str).map (List.map pyCharLower) =
          pySplitAux (rest.map pyCharLower) (([] : Str).map pyCharLower) from
          (ih []).symm]
        rfl
    · have hc' : isPySpace (pyCharLower c) = false := by
        rw [isPySpace_pyCharLower]; simpa using hc
      simp only [List.map_cons, pySplitAux, hc, hc', ite_false,
        Bool.false_eq_true]
      exact ih (c :: acc)

/-- Tokenizing the lowered string lowers each token. -/
theorem pySplit_pyLower (s : Str) :
    pySplit (pyLower s) = (pySplit s).map (List.map pyCharLower) := by
  rw [pySplit, pySplit, pyLower]
  exact pySplitAux_map_lower s []

/-- The token set ignores stripping. -/
theorem tokenSet_pyStrip (s : Str) : tokenSet (pyStrip s) = tokenSet s := by
  rw [tokenSet, tokenSet, pySplit_pyLower, pySplit_pyLower, pySplit_pyStrip]

/-- A split with a pending word is nonempty. -/
theorem pySplitAux_ne_nil_of_acc :
    ∀ (l : Str) (acc : Str), acc ≠ [] → pySplitAux l acc ≠ [] := by
  intro l
  induction l with
  | nil => intro acc hacc; simp [pySplitAux, hacc]
  | cons c rest ih =>
    intro acc hacc
    by_cases hc : isPySpace c = true
    · simp [pySplitAux, hc, hacc]
    · simp only [pySplitAux, hc, ite_false, Bool.false_eq_true]
      exact ih (c :: acc) (by simp)

/-- A string containing a non-whitespace character splits into at least one
token. -/
theorem pySplitAux_ne_nil_of_mem :
    ∀ (l : Str), (∃ c ∈ l, isPySpace c = false) →
      ∀ (acc : Str), pySplitAux l acc ≠ [] := by
  intro l
  induction l with
  | nil => rintro ⟨c, hc, _⟩; simp at hc
  | cons c rest ih =>
    rintro ⟨c', hc', hns⟩ acc
    by_cases hc : isPySpace c = true
    · have hrest : ∃ x ∈ rest, isPySpace x = false := by
        rcases List.mem_cons.mp hc' with rfl | hmem
        · rw [hc] at hns; cases hns
        · exact ⟨c', hmem, hns⟩
      by_cases hacc : acc = []
      · subst hacc
        simp only [pySplitAux, hc, ite_true]
        exact ih hrest []
      · simp [pySplitAux, hc, hacc]
    · simp only [pySplitAux, hc, ite_false, Bool.false_eq_true]
      exact pySplitAux_ne_nil_of_acc rest (c :: acc) (by simp)

/-- A nonempty stripped string contains a non-whitespace character. -/
theorem pyStrip_has_nonspace (s : Str) (h : pyStrip s ≠ []) :
    ∃ c ∈ pyStrip s, isPySpace c = false := by
  rw [pyStrip] at h ⊢
  set m := (s.dropWhile isPySpace).reverse.dropWhile isPySpace with hm
  have hlen : 0 < m.length := by
    rcases Nat.eq_zero_or_pos m.length with h0 | h0
    · exact absurd (by simp [List.eq_nil_of_length_eq_zero h0]) h
    · exact h0
  have hhd := List.dropWhile_get_zero_not isPySpace
    (s.dropWhile isPySpace).reverse (by simpa [hm] using hlen)
  refine ⟨m.get ⟨0, hlen⟩, ?_, ?_⟩
  · exact List.mem_reverse.mpr (List.get_mem m 0 hlen)
  · simpa [hm] using hhd

/-- A text whose stripped form is nonempty has a nonempty token set. -/
theorem tokenSet_ne_nil (s : Str) (h : pyStrip s ≠ []) : tokenSet s ≠ [] := by
  rw [← tokenSet_pyStrip, tokenSet]
  intro hnil
  rw [List.dedup_eq_nil] at hnil
  rw [pySplit_pyLower] at hnil
  have : pySplit (pyStrip s) ≠ [] := by
    rcases pyStrip_has_nonspace s h with ⟨c, hc, hns⟩
    exact pySplitAux_ne_nil_of_mem (pyStrip s) ⟨c, hc, hns⟩ []
  exact this (List.map_eq_nil.mp hnil)

/-- Every token a split produces is nonempty and whitespace-free. -/
theorem pySplitAux_tokens_good :
    ∀ (l : Str) (acc : Str), (∀ c ∈ acc, isPySpace c = false) →
      ∀ t ∈ pySplitAux l acc, t ≠ [] ∧ ∀ c ∈ t, isPySpace c = false := by
  intro l
  induction l with
  | nil =>
    intro acc hacc t ht
    by_cases h : acc = []
    · subst h; simp [pySplitAux] at ht
    · simp only [pySplitAux, h, ite_false, List.mem_singleton] at ht
      subst ht
      exact ⟨by simpa using h, fun c hc => hacc c (List.mem_reverse.mp hc)⟩
  | cons c rest ih =>
    intro acc hacc t ht
    by_cases hc : isPySpace c = true
    · by_cases h : acc = []
      · subst h
        simp only [pySplitAux, hc, ite_true] at ht
        exact ih [] (by simp) t ht
      · simp only [pySplitAux, hc, ite_true, h, ite_false] at ht
        rcases List.mem_cons.mp ht with rfl | ht'
        · exact ⟨by simpa using h, fun x hx => hacc x (List.mem_reverse.mp hx)⟩
        · exact ih [] (by simp) t ht'
    · simp only [pySplitAux, hc, ite_false, Bool.false_eq_true] at ht
      refine ih (c :: acc) ?_ t ht
      intro x hx
      rcases List.mem_cons.mp hx with rfl | hx'
      · simpa using hc
      · exact hacc x hx'

/-- Consuming a whitespace-free block accumulates it onto the pending word. -/
theorem pySplitAux_no_ws_block :
    ∀ (l : Str), (∀ c ∈ l, isPySpace c = false) →
      ∀ (m : Str) (acc : Str),
        pySplitAux (l ++ m) acc = pySplitAux m (l.reverse ++ acc) := by
  intro l
  induction l with
  | nil => intro _ m acc; rfl
  | cons c rest ih =>
    intro hl m acc
    have hc : isPySpace c = false := hl c (List.mem_cons_self c rest)
    simp only [List.cons_append, pySplitAux, hc, ite_false, Bool.false_eq_true,
      List.append_eq]
    rw [ih (fun x hx => hl x (List.mem_cons_of_mem _ hx)) m (c :: acc)]
    rw [List.reverse_cons, List.append_assoc, List.singleton_append]

/-- Splitting is a retraction of space-joining on lists of nonempty,
whitespace-free tokens. -/
theorem pySplit_pyJoin :
    ∀ (toks : List Str),
      (∀ t ∈ toks, t ≠ [] ∧ ∀ c ∈ t, isPySpace c = false) →
      pySplit (pyJoin [' '] toks) = toks := by
  intro toks
  induction toks with
  | nil => intro _; rfl
  | cons t rest ih =>
    intro hgood
    obtain ⟨hne, hws⟩ := hgood t (List.mem_cons_self t rest)
    cases rest with
    | nil =>
      have h := pySplitAux_no_ws_block t hws [] []
      rw [List.append_nil, List.append_nil] at h
      rw [pyJoin, pySplit, h, pySplitAux]
      rw [if_neg (by simpa using hne), List.reverse_reverse]
    | cons u us =>
      rw [pyJoin, pySplit]
      rw [List.append_assoc, List.singleton_append]
      rw [pySplitAux_no_ws_block t hws (' ' :: pyJoin [' '] (u :: us)) []]
      rw [List.append_nil]
      have hsp : isPySpace ' ' = true := by decide
      simp only [pySplitAux, hsp, ite_true]
      rw [if_neg (by simpa using hne), List.reverse_reverse]
      rw [show pySplitAux (pyJoin [' '] (u :: us)) [] =
        pySplit (pyJoin [' '] (u :: us)) from rfl]
      rw [ih (fun x hx => hgood x (List.mem_cons_of_mem _ hx))]

/-- Equal normalized forms force equal lowered token lists. -/
theorem tokens_of_pyNormalize_eq (s1 s2 : Str)
    (h : pyNormalize s1 = pyNormalize s2) :
    pySplit (pyLower s1) = pySplit (pyLower s2) := by
  have h1 := pySplit_pyJoin (pySplit (pyLower s1))
    (pySplitAux_tokens_good (pyLower s1) [] (by simp))
  have h2 := pySplit_pyJoin (pySplit (pyLower s2))
    (pySplitAux_tokens_good (pyLower s2) [] (by simp))
  rw [← h1, ← h2]
  rw [pyNormalize, pyNormalize] at h
  rw [h]

/-- Texts with equal (nonempty) token sets always exceed the overlap
threshold: their ratio is 1. -/
theorem specOverlapTooHigh_of_eq (t1 t2 : Str) (h : tokenSet t1 = tokenSet t2)
    (hne : tokenSet t1 ≠ []) : specOverlapTooHigh t1 t2 = true := by
  rw [specOverlapTooHigh]
  have hfilter : ((tokenSet t1).filter (fun w => w ∈ tokenSet t2)) = tokenSet t1 := by
    rw [List.filter_eq_self]
    intro a ha
    exact decide_eq_true (h ▸ ha)
  rw [hfilter, ← h, min_self]
  have hpos : 0 < (tokenSet t1).length := List.length_pos.mpr hne
  have hq : ((tokenSet t1).length : ℚ) / ((tokenSet t1).length : ℚ) = 1 := by
    apply div_self
    exact_mod_cast hpos.ne'
  rw [hq]
  norm_num

/-- Stripping the left text does not change the overlap test. -/
theorem specOverlapTooHigh_strip_left (x y : Str) :
    specOverlapTooHigh (pyStrip x) y = specOverlapTooHigh x y := by
  rw [specOverlapTooHigh, specOverlapTooHigh, tokenSet_pyStrip]

/-- On long texts with nonempty token sets, the near-duplicate test is exact
equality or the spec's overlap test. -/
theorem is_too_similar_long (c1 c2 : Str) (h1 : 50 ≤ c1.length)
    (h2 : 50 ≤ c2.length) (hne1 : tokenSet c1 ≠ []) (hne2 : tokenSet c2 ≠ []) :
    is_too_similar c1 c2 = (decide (c1 = c2) || specOverlapTooHigh c1 c2) := by
  rw [is_too_similar]
  by_cases hceq : c1 = c2
  · rw [if_pos hceq]
    simp [hceq]
  · rw [if_neg hceq]
    have hcond : (decide (c1.length < 50) || decide (c2.length < 50)) = false := by
      simp only [Bool.or_eq_false_iff, decide_eq_false_iff_not, not_lt]
      exact ⟨h1, h2⟩
    rw [hcond]
    simp only [Bool.false_eq_true, if_false, decide_eq_false hceq, Bool.false_or]
    have hg : (decide (tokenSet c1 = []) || decide (tokenSet c2 = [])) = false := by
      simp [hne1, hne2]
    rw [hg]
    simp only [Bool.false_eq_true, if_false]
    have hpos : 0 < min (tokenSet c1).length (tokenSet c2).length := by
      rcases List.length_pos.mpr hne1 with hp1
      rcases List.length_pos.mpr hne2 with hp2
      omega
    rw [if_pos hpos]
    rw [specOverlapTooHigh]

/-- The invariant the deduplication loop maintains in the long-text regime:
`seen_content` and `seen_normalized` are exactly the stripped contents and
normalized forms of the accepted documents, which are all long. -/
def DedupInv (st : DedupState) : Prop :=
  (∀ s ∈ st.seenC, ∃ u ∈ st.uniq, pyStrip u.page_content = s) ∧
  (∀ u ∈ st.uniq, pyStrip u.page_content ∈ st.seenC) ∧
  (∀ n ∈ st.seenN, ∃ u ∈ st.uniq, pyNormalize (pyStrip u.page_content) = n) ∧
  (∀ u ∈ st.uniq, pyNormalize (pyStrip u.page_content) ∈ st.seenN) ∧
  (∀ u ∈ st.uniq, 50 ≤ (pyStrip u.page_content).length)

/-- Accepting a long candidate preserves the invariant. -/
theorem DedupInv_push (st : DedupState) (d : Document) (hinv : DedupInv st)
    (hd : 50 ≤ (pyStrip d.page_content).length) : DedupInv (dedupPush st d) := by
  obtain ⟨hC1, hC2, hN1, hN2, hU⟩ := hinv
  refine ⟨?_, ?_, ?_, ?_, ?_⟩
  · intro s hs
    rcases List.mem_cons.mp hs with rfl | hs'
    · exact ⟨d, by simp [dedupPush]⟩
    · rcases hC1 s hs' with ⟨u, hu, hus⟩
      exact ⟨u, by simp [dedupPush, hu], hus⟩
  · intro u hu
    rcases List.mem_append.mp hu with hu' | hu'
    · exact List.mem_cons_of_mem _ (hC2 u hu')
    · rw [List.mem_singleton.mp hu']
      exact List.mem_cons_self _ _
  · intro n hn
    rcases List.mem_cons.mp hn with rfl | hn'
    · exact ⟨d, by simp [dedupPush]⟩
    · rcases hN1 n hn' with ⟨u, hu, hun⟩
      exact ⟨u, by simp [dedupPush, hu], hun⟩
  · intro u hu
    rcases List.mem_append.mp hu with hu' | hu'
    · exact List.mem_cons_of_mem _ (hN2 u hu')
    · rw [List.mem_singleton.mp hu']
      exact List.mem_cons_self _ _
  · intro u hu
    rcases List.mem_append.mp hu with hu' | hu'
    · exact hU u hu'
    · rw [List.mem_singleton.mp hu']
      exact hd

/-- A long stripped text is nonempty. -/
theorem pyStrip_ne_nil_of_long (s : Str) (h : 50 ≤ (pyStrip s).length) :
    pyStrip s ≠ [] := by
  intro hnil
  rw [hnil] at h
  simp at h

/-- In the long-text regime, the loop's three rejection checks are together
equivalent to the spec's overlap test against the accepted documents. -/
theorem dedupAccept_eq_spec (st : DedupState) (d : Document)
    (hd : 50 ≤ (pyStrip d.page_content).length) (hinv : DedupInv st) :
    dedupAccept st d =
      !(st.uniq.any (fun e => specOverlapTooHigh d.page_content e.page_content)) := by
  obtain ⟨hC1, hC2, hN1, hN2, hU⟩ := hinv
  have hdne : tokenSet d.page_content ≠ [] :=
    tokenSet_ne_nil _ (pyStrip_ne_nil_of_long _ hd)
  have key : dedupAccept st d = false ↔
      st.uniq.any (fun e => specOverlapTooHigh d.page_content e.page_content) = true := by
    constructor
    · intro hrej
      rw [dedupAccept] at hrej
      simp only [Bool.and_eq_false_iff, Bool.not_eq_false', List.any_eq_true,
        Bool.not_eq_false] at hrej
      rw [List.any_eq_true]
      rcases hrej with (hrej | hrej) | hrej
      · rcases hC1 _ (List.elem_iff.mp hrej) with ⟨u, hu, hus⟩
        refine ⟨u, hu, ?_⟩
        apply specOverlapTooHigh_of_eq _ _ _ hdne
        rw [← tokenSet_pyStrip d.page_content, ← hus, tokenSet_pyStrip]
      · rcases hN1 _ (List.elem_iff.mp hrej) with ⟨u, hu, hun⟩
        refine ⟨u, hu, ?_⟩
        apply specOverlapTooHigh_of_eq _ _ _ hdne
        have htoks := tokens_of_pyNormalize_eq _ _ hun.symm
        rw [← tokenSet_pyStrip d.page_content, ← tokenSet_pyStrip u.page_content,
          tokenSet, tokenSet, htoks]
      · rcases hrej with ⟨u, hu, hsim⟩
        refine ⟨u, hu, ?_⟩
        have hune : tokenSet u.page_content ≠ [] :=
          tokenSet_ne_nil _ (pyStrip_ne_nil_of_long _ (hU u hu))
        rw [is_too_similar_long _ _ hd
          (le_trans (hU u hu) (pyStrip_length_le _))
          (by rw [tokenSet_pyStrip]; exact hdne) hune] at hsim
        rcases Bool.or_eq_true_iff.mp hsim with heq | hover
        · apply specOverlapTooHigh_of_eq _ _ _ hdne
          rw [← tokenSet_pyStrip d.page_content, of_decide_eq_true heq]
        · rw [← specOverlapTooHigh_strip_left]
          exact hover
    · intro hany
      rcases List.any_eq_true.mp hany with ⟨u, hu, hover⟩
      rw [dedupAccept]
      simp only [Bool.and_eq_false_iff, Bool.not_eq_false', List.any_eq_true,
        Bool.not_eq_false]
      right
      refine ⟨u, hu, ?_⟩
      have hune : tokenSet u.page_content ≠ [] :=
        tokenSet_ne_nil _ (pyStrip_ne_nil_of_long _ (hU u hu))
      rw [is_too_similar_long _ _ hd
        (le_trans (hU u hu) (pyStrip_length_le _))
        (by rw [tokenSet_pyStrip]; exact hdne) hune]
      rw [specOverlapTooHigh_strip_left, hover]
      simp
  cases hany : st.uniq.any (fun e => specOverlapTooHigh d.page_content e.page_content) with
  | true => exact key.mpr hany
  | false =>
    rw [Bool.not_false]
    by_contra hne
    have : dedupAccept st d = false := by
      cases h : dedupAccept st d
      · rfl
      · exact absurd h hne
    rw [key.mp this] at hany
    cases hany

/-- In the long-text regime the loop computes exactly the spec's greedy
overlap-based deduplication, relative to any invariant-respecting state. -/
theorem dedupGo_eq_specGo :
    ∀ (ds : List Document) (st : DedupState),
      (∀ d ∈ ds, 50 ≤ (pyStrip d.page_content).length) → DedupInv st →
      dedupGo st ds = specDedupGo st.uniq ds := by
  intro ds
  induction ds with
  | nil => intro st _ _; rfl
  | cons d rest ih =>
    intro st hlong hinv
    have hd := hlong d (List.mem_cons_self d rest)
    have hrest : ∀ x ∈ rest, 50 ≤ (pyStrip x.page_content).length :=
      fun x hx => hlong x (List.mem_cons_of_mem _ hx)
    rw [dedupGo, specDedupGo, dedupAccept_eq_spec st d hd hinv]
    cases hany : st.uniq.any
        (fun e => specOverlapTooHigh d.page_content e.page_content) with
    | true =>
      rw [Bool.not_true, if_neg (by simp), if_pos rfl]
      exact ih st hrest hinv
    | false =>
      rw [Bool.not_false, if_pos rfl, if_neg (by simp)]
      rw [ih (dedupPush st d) hrest (DedupInv_push st d hinv hd)]
      rfl

/-- The accepted documents form a subsequence of the input. -/
theorem dedupGo_sublist :
    ∀ (ds : List Document) (st : DedupState), (dedupGo st ds).Sublist ds := by
  intro ds
  induction ds with
  | nil => intro st; exact List.Sublist.refl []
  | cons d rest ih =>
    intro st
    rw [dedupGo]
    by_cases h : dedupAccept st d = true
    · rw [if_pos h]
      exact List.Sublist.cons₂ d (ih (dedupPush st d))
    · rw [if_neg h]
      exact (ih st).trans (List.sublist_cons_self d rest)

/-- **C6** (confirmed).  Deduplication is order-preserving with first
occurrence winning — the output is a subsequence of the input — and when
every candidate's stripped text is at or above the 50-character short-text
threshold, a candidate is rejected exactly when, against some
already-accepted candidate, the lowercased token-set intersection divided by
the smaller token set meets or exceeds 0.85: the loop coincides with the
spec's greedy overlap-based deduplication. -/
theorem dedup_long_refines_spec (docs : List Document)
    (hlong : ∀ d ∈ docs, 50 ≤ (pyStrip d.page_content).length) :
    deduplicate_aggressively docs = specDedup docs ∧
    (deduplicate_aggressively docs).Sublist docs := by
  constructor
  · rw [deduplicate_aggressively, specDedup]
    exact dedupGo_eq_specGo docs ⟨[], [], []⟩ hlong
      ⟨by simp, by simp, by simp, by simp, by simp⟩
  · exact dedupGo_sublist docs ⟨[], [], []⟩

/-- **C6 witness**: two 60-character candidates are deduplicated exactly as
the spec's greedy overlap filter prescribes, as a subsequence of the input. -/
theorem dedup_long_refines_spec_witness :
    deduplicate_aggressively
        [⟨List.replicate 60 'a', []⟩, ⟨List.replicate 60 'b', []⟩] =
      specDedup [⟨List.replicate 60 'a', []⟩, ⟨List.replicate 60 'b', []⟩] ∧
    (deduplicate_aggressively
        [⟨List.replicate 60 'a', []⟩, ⟨List.replicate 60 'b', []⟩]).Sublist
      [⟨List.replicate 60 'a', []⟩, ⟨List.replicate 60 'b', []⟩] :=
  dedup_long_refines_spec
    [⟨List.replicate 60 'a', []⟩, ⟨List.replicate 60 'b', []⟩] (by decide)

/-- The substring test is the infix relation. -/
theorem strContains_char_iff (h n : Str) : strContains h n = true ↔ n <:+: h := by
  rw [strContains, List.any_eq_true]
  constructor
  · rintro ⟨t, ht, hpre⟩
    exact List.infix_iff_prefix_suffix.mpr
      ⟨t, List.isPrefixOf_iff_prefix.mp hpre, (List.mem_tails t h).mp ht⟩
  · intro hinf
    rcases List.infix_iff_prefix_suffix.mp hinf with ⟨t, hpre, hsuf⟩
    exact ⟨t, (List.mem_tails t h).mpr hsuf, List.isPrefixOf_iff_prefix.mpr hpre⟩

/-- A substring is no longer than its host. -/
theorem strContains_length_le (h n : Str) (hc : strContains h n = true) :
    n.length ≤ h.length :=
  ((strContains_char_iff h n).mp hc).length_le

/-- A substring of equal length is the host itself. -/
theorem strContains_eq_of_length (h n : Str) (hc : strContains h n = true)
    (hlen : n.length = h.length) : n = h :=
  ((strContains_char_iff h n).mp hc).sublist.eq_of_length hlen

/-- A candidate no loop check can reject in the given state. -/
def dedupFresh (st : DedupState) (d : Document) : Prop :=
  pyStrip d.page_content ∉ st.seenC ∧
  pyNormalize (pyStrip d.page_content) ∉ st.seenN ∧
  ∀ u ∈ st.uniq, is_too_similar (pyStrip d.page_content) u.page_content = false

/-- Candidate `d`, arriving after `a`, shares none of the loop's coincidence
checks with `a`: distinct stripped text, distinct normalized form, not
near-duplicate. -/
def dedupIndep (a d : Document) : Prop :=
  pyStrip d.page_content ≠ pyStrip a.page_content ∧
  pyNormalize (pyStrip d.page_content) ≠ pyNormalize (pyStrip a.page_content) ∧
  is_too_similar (pyStrip d.page_content) a.page_content = false

instance (a d : Document) : Decidable (dedupIndep a d) := by
  rw [dedupIndep]; infer_instance

/-- A fresh candidate is accepted. -/
theorem dedupAccept_of_fresh (st : DedupState) (d : Document)
    (h : dedupFresh st d) : dedupAccept st d = true := by
  obtain ⟨h1, h2, h3⟩ := h
  rw [dedupAccept]
  simp only [Bool.and_eq_true, Bool.not_eq_true']
  refine ⟨⟨?_, ?_⟩, ?_⟩
  · exact Bool.eq_false_iff.mpr (fun hb => h1 (List.elem_iff.mp hb))
  · exact Bool.eq_false_iff.mpr (fun hb => h2 (List.elem_iff.mp hb))
  · refine Bool.eq_false_iff.mpr (fun hb => ?_)
    rcases List.any_eq_true.mp hb with ⟨u, hu, hp⟩
    rw [h3 u hu] at hp
    cases hp

/-- Freshness survives pushing an independent earlier candidate. -/
theorem dedupFresh_push (st : DedupState) (a d : Document)
    (hfresh : dedupFresh st d) (hind : dedupIndep a d) :
    dedupFresh (dedupPush st a) d := by
  obtain ⟨h1, h2, h3⟩ := hfresh
  obtain ⟨g1, g2, g3⟩ := hind
  refine ⟨?_, ?_, ?_⟩
  · intro hmem
    rcases List.mem_cons.mp hmem with heq | hmem'
    · exact g1 heq
    · exact h1 hmem'
  · intro hmem
    rcases List.mem_cons.mp hmem with heq | hmem'
    · exact g2 heq
    · exact h2 hmem'
  · intro u hu
    rcases List.mem_append.mp hu with hu' | hu'
    · exact h3 u hu'
    · rw [List.mem_singleton.mp hu']
      exact g3

/-- A run of pairwise-independent, state-fresh candidates accepts everything
and ends in the folded state. -/
theorem dedupGo_all_accept :
    ∀ (ds : List Document) (st : DedupState),
      (∀ d ∈ ds, dedupFresh st d) → ds.Pairwise dedupIndep →
      dedupGo st ds = ds ∧ dedupRun st ds = ds.foldl dedupPush st := by
  intro ds
  induction ds with
  | nil => intro st _ _; exact ⟨rfl, rfl⟩
  | cons d rest ih =>
    intro st hfresh hpair
    have hacc := dedupAccept_of_fresh st d (hfresh d (List.mem_cons_self d rest))
    rw [List.pairwise_cons] at hpair
    have hfresh' : ∀ x ∈ rest, dedupFresh (dedupPush st d) x := by
      intro x hx
      exact dedupFresh_push st d x (hfresh x (List.mem_cons_of_mem _ hx))
        (hpair.1 x hx)
    obtain ⟨hgo, hrun⟩ := ih (dedupPush st d) hfresh' hpair.2
    rw [dedupGo, dedupRun, if_pos hacc, if_pos hacc, hgo, hrun]
    exact ⟨rfl, rfl⟩

/-- Processing a concatenation processes the pieces in sequence. -/
theorem dedupGo_append :
    ∀ (l1 l2 : List Document) (st : DedupState),
      dedupGo st (l1 ++ l2) = dedupGo st l1 ++ dedupGo (dedupRun st l1) l2 := by
  intro l1
  induction l1 with
  | nil => intro l2 st; rfl
  | cons d rest ih =>
    intro l2 st
    rw [List.cons_append, dedupGo, dedupGo, dedupRun]
    by_cases h : dedupAccept st d = true
    · rw [if_pos h, if_pos h, if_pos h, ih, List.cons_append]
    · rw [if_neg h, if_neg h, if_neg h, ih]

/-- `seen_content` after accepting a block of candidates. -/
theorem foldl_push_seenC :
    ∀ (ds : List Document) (st : DedupState),
      (ds.foldl dedupPush st).seenC =
        (ds.map (fun d => pyStrip d.page_content)).reverse ++ st.seenC := by
  intro ds
  induction ds with
  | nil => intro st; rfl
  | cons d rest ih =>
    intro st
    rw [List.foldl_cons, ih, List.map_cons, List.reverse_cons,
      List.append_assoc, List.singleton_append]
    rfl

/-- `seen_normalized` after accepting a block of candidates. -/
theorem foldl_push_seenN :
    ∀ (ds : List Document) (st : DedupState),
      (ds.foldl dedupPush st).seenN =
        (ds.map (fun d => pyNormalize (pyStrip d.page_content))).reverse ++ st.seenN := by
  intro ds
  induction ds with
  | nil => intro st; rfl
  | cons d rest ih =>
    intro st
    rw [List.foldl_cons, ih, List.map_cons, List.reverse_cons,
      List.append_assoc, List.singleton_append]
    rfl

/-- The accepted documents after accepting a block of candidates. -/
theorem foldl_push_uniq :
    ∀ (ds : List Document) (st : DedupState),
      (ds.foldl dedupPush st).uniq = st.uniq ++ ds := by
  intro ds
  induction ds with
  | nil => intro st; simp
  | cons d rest ih =>
    intro st
    rw [List.foldl_cons, ih]
    simp [dedupPush]

/-- **C3** (corrected).  For a candidate list containing one exact-duplicate
pair of texts whose members are otherwise pairwise non-coincident (distinct
stripped texts, distinct normalized forms, not near-duplicates),
deduplication returns exactly `len(input) - 1` documents, dropping the later
duplicate; and for an input of two trimmed chunks both below the short-text
length threshold where one chunk's text is a substring of the other's,
exactly one chunk survives deduplication — the first in input order. -/
theorem dedup_duplicate_pair_and_containment
    (xs ys zs : List Document) (a b : Document)
    (hdup : a.page_content = b.page_content)
    (hind : (xs ++ a :: ys ++ zs).Pairwise dedupIndep) :
    ((deduplicate_aggressively (xs ++ a :: ys ++ b :: zs) = xs ++ a :: ys ++ zs ∧
      (deduplicate_aggressively (xs ++ a :: ys ++ b :: zs)).length =
        (xs ++ a :: ys ++ b :: zs).length - 1) ∧
     ∀ (d1 d2 : Document),
        pyStrip d1.page_content = d1.page_content →
        pyStrip d2.page_content = d2.page_content →
        d1.page_content.length < 50 → d2.page_content.length < 50 →
        (strContains d1.page_content d2.page_content = true ∨
         strContains d2.page_content d1.page_content = true) →
        deduplicate_aggressively [d1, d2] = [d1]) := by
  have hsplit : xs ++ a :: ys ++ b :: zs = (xs ++ a :: ys) ++ (b :: zs) := by
    simp [List.append_assoc]
  have hdocs' : xs ++ a :: ys ++ zs = (xs ++ a :: ys) ++ zs := by
    simp [List.append_assoc]
  have hfr : (xs ++ a :: ys).Pairwise dedupIndep :=
    List.Pairwise.sublist (hdocs' ▸ List.sublist_append_left (xs ++ a :: ys) zs)
      hind
  have hfresh0 : ∀ d ∈ xs ++ a :: ys, dedupFresh ⟨[], [], []⟩ d := by
    intro d _
    exact ⟨List.not_mem_nil _, List.not_mem_nil _,
      fun u hu => absurd hu (List.not_mem_nil u)⟩
  obtain ⟨hgo1, hrun1⟩ :=
    dedupGo_all_accept (xs ++ a :: ys) ⟨[], [], []⟩ hfresh0 hfr
  have hbC : pyStrip b.page_content ∈
      ((xs ++ a :: ys).foldl dedupPush ⟨[], [], []⟩).seenC := by
    rw [foldl_push_seenC, List.append_nil]
    apply List.mem_reverse.mpr
    exact List.mem_map.mpr
      ⟨a, List.mem_append.mpr (Or.inr (List.mem_cons_self a ys)), by rw [hdup]⟩
  have hbacc : dedupAccept ((xs ++ a :: ys).foldl dedupPush ⟨[], [], []⟩) b = false := by
    have hel : ((xs ++ a :: ys).foldl dedupPush ⟨[], [], []⟩).seenC.contains
        (pyStrip b.page_content) = true := List.elem_iff.mpr hbC
    simp only [dedupAccept]
    rw [hel, Bool.not_true, Bool.false_and, Bool.false_and]
  have hrel : ∀ w ∈ xs ++ a :: ys, ∀ z ∈ zs, dedupIndep w z := by
    have h := (List.pairwise_append.mp (hdocs' ▸ hind)).2.2
    exact h
  have hfresh2 : ∀ z ∈ zs,
      dedupFresh ((xs ++ a :: ys).foldl dedupPush ⟨[], [], []⟩) z := by
    intro z hz
    refine ⟨?_, ?_, ?_⟩
    · rw [foldl_push_seenC, List.append_nil]
      intro hmem
      rcases List.mem_map.mp (List.mem_reverse.mp hmem) with ⟨w, hw, hweq⟩
      exact (hrel w hw z hz).1 hweq.symm
    · rw [foldl_push_seenN, List.append_nil]
      intro hmem
      rcases List.mem_map.mp (List.mem_reverse.mp hmem) with ⟨w, hw, hweq⟩
      exact (hrel w hw z hz).2.1 hweq.symm
    · rw [foldl_push_uniq]
      intro u hu
      rw [List.nil_append] at hu
      exact (hrel u hu z hz).2.2
  have hzpair : zs.Pairwise dedupIndep :=
    (List.pairwise_append.mp (hdocs' ▸ hind)).2.1
  obtain ⟨hgo2, _⟩ :=
    dedupGo_all_accept zs ((xs ++ a :: ys).foldl dedupPush ⟨[], [], []⟩)
      hfresh2 hzpair
  have hmain : deduplicate_aggressively (xs ++ a :: ys ++ b :: zs) =
      xs ++ a :: ys ++ zs := by
    rw [deduplicate_aggressively, hsplit, dedupGo_append, hgo1, hrun1]
    rw [show dedupGo ((xs ++ a :: ys).foldl dedupPush ⟨[], [], []⟩) (b :: zs) =
        dedupGo ((xs ++ a :: ys).foldl dedupPush ⟨[], [], []⟩) zs from by
      rw [dedupGo, if_neg (by rw [hbacc]; simp)]]
    rw [hgo2, ← hdocs']
  refine ⟨⟨hmain, ?_⟩, ?_⟩
  · rw [hmain]
    simp only [List.length_append, List.length_cons]
    omega
  · intro d1 d2 hs1 hs2 hl1 hl2 hsub
    have hsim : is_too_similar (pyStrip d2.page_content) d1.page_content = true := by
      rw [hs2, is_too_similar]
      by_cases heq : d2.page_content = d1.page_content
      · rw [if_pos heq]
      · rw [if_neg heq]
        have hcond : (decide (d2.page_content.length < 50) ||
            decide (d1.page_content.length < 50)) = true := by
          simp only [Bool.or_eq_true_iff, decide_eq_true_eq]
          exact Or.inl hl2
        rw [hcond, if_pos rfl]
        rcases hsub with hs | hs
        · have hle := strContains_length_le _ _ hs
          have hngt : ¬ (d2.page_content.length > d1.page_content.length) := by
            omega
          rw [if_neg hngt, if_neg hngt]
          exact hs
        · have hle := strContains_length_le _ _ hs
          by_cases hgt : d2.page_content.length > d1.page_content.length
          · rw [if_pos hgt, if_pos hgt]
            exact hs
          · have heq2 : d1.page_content = d2.page_content :=
              strContains_eq_of_length _ _ hs (by omega)
            exact absurd heq2.symm heq
    have hacc1 : dedupAccept ⟨[], [], []⟩ d1 = true :=
      dedupAccept_of_fresh _ _ ⟨List.not_mem_nil _, List.not_mem_nil _,
        fun u hu => absurd hu (List.not_mem_nil u)⟩
    have hacc2 : dedupAccept (dedupPush ⟨[], [], []⟩ d1) d2 = false := by
      have hany : (dedupPush ⟨[], [], []⟩ d1).uniq.any
          (fun e => is_too_similar (pyStrip d2.page_content) e.page_content) = true := by
        simp [dedupPush, hsim]
      simp only [dedupAccept]
      rw [hany, Bool.not_true, Bool.and_false]
    rw [deduplicate_aggressively, dedupGo, if_pos hacc1, dedupGo,
      if_neg (by rw [hacc2]; simp)]
    rfl

/-- **C3 counterexample**: a three-element list with exactly one
exact-duplicate text pair loses *two* elements (the near-duplicate "ab" is
dropped as well), so the result size is not `len(input) - 1`; and of two
short chunks where the shorter text is contained in the longer, the *first*
(shorter) chunk survives, not the longer one. -/
theorem dedup_claim_counterexample :
    (deduplicate_aggressively
      [⟨"abc".toList, []⟩, ⟨"abc".toList, [("k".toList, "v".toList)]⟩,
       ⟨"ab".toList, []⟩]).length ≠ 3 - 1 ∧
    (deduplicate_aggressively [⟨"ab".toList, []⟩, ⟨"abc".toList, []⟩] =
        [⟨"ab".toList, []⟩] ∧
      (⟨"ab".toList, []⟩ : Document) ≠ ⟨"abc".toList, []⟩) := by decide

/-- **C3 witness**: a pure duplicate pair of documents loses exactly the
second copy, and of two short chunks with containment the first survives. -/
theorem dedup_duplicate_pair_and_containment_witness :
    deduplicate_aggressively
        [⟨"dup text".toList, []⟩, ⟨"dup text".toList, [("k".toList, "v".toList)]⟩] =
      [⟨"dup text".toList, []⟩] ∧
    deduplicate_aggressively [⟨"abcd".toList, []⟩, ⟨"abc".toList, []⟩] =
      [⟨"abcd".toList, []⟩] := by
  have h := dedup_duplicate_pair_and_containment [] [] []
    ⟨"dup text".toList, []⟩ ⟨"dup text".toList, [("k".toList, "v".toList)]⟩
    rfl (by decide)
  exact ⟨h.1.1, h.2 ⟨"abcd".toList, []⟩ ⟨"abc".toList, []⟩
    (by decide) (by decide) (by decide) (by decide) (Or.inl (by decide))⟩
